import Mathlib

/-!
Verification of the parsing utilities of `flake8/utils.py`: the
files-to-codes mapping tokenizer (`_tokenize_files_to_codes_mapping`), the
mapping state machine (`parse_files_to_codes_mapping`), and the unified diff
scanner (`parse_unified_diff`).  Strings are modelled as `List Char`, Python
exceptions as `Except`, and the fixed regular expressions are translated
into equivalent explicit greedy matchers (the equivalence arguments are in
the doc comments of the matchers).
-/

namespace Flake8Utils

/-- The regex character class `\s` over the ASCII range (also the character
set stripped by `str.strip()`): space, tab, newline, carriage return,
vertical tab, form feed. -/
def isSpaceChar (c : Char) : Bool :=
  c.toNat = 32 || c.toNat = 9 || c.toNat = 10 || c.toNat = 13 ||
    c.toNat = 11 || c.toNat = 12

/-- The regex character class `[A-Z]`. -/
def isUpperChar (c : Char) : Bool :=
  65 ≤ c.toNat && c.toNat ≤ 90

/-- The regex character class `[0-9]`. -/
def isDigitChar (c : Char) : Bool :=
  48 ≤ c.toNat && c.toNat ≤ 57

/-- The regex character class `[^\s:,]` of the FILE pattern
(58 is `:` and 44 is `,`). -/
def isFileChar (c : Char) : Bool :=
  !(isSpaceChar c) && !(c.toNat = 58) && !(c.toNat = 44)

/-- Python `str.strip()`: drop leading and trailing whitespace. -/
def pyStrip (s : List Char) : List Char :=
  ((s.dropWhile isSpaceChar).reverse.dropWhile isSpaceChar).reverse

/-- Match the anchored regex `[A-Z]+[0-9]*(?=$|\s|,)` at the front of `s`,
returning the matched span and the remainder.  The regex engine's
backtracking cannot produce a match that plain greedy matching misses: any
shorter candidate for `[A-Z]+[0-9]*` ends immediately before an uppercase
letter or a digit, and such a character never satisfies the lookahead
`(?=$|\s|,)`.  So the regex matches exactly when the maximal run of
uppercase letters (nonempty) followed by the maximal run of digits is
followed by end of input, whitespace, or a comma. -/
def codeBoundary : List Char → Bool
  | [] => true
  | c :: _ => isSpaceChar c || c.toNat = 44

/-- Match the regex `[A-Z]+[0-9]*(?=$|\s|,)` at the front of `s` (see the
equivalence argument on `codeBoundary` above). -/
def matchCode (s : List Char) : Option (List Char × List Char) :=
  if s.takeWhile isUpperChar ≠ [] ∧
      codeBoundary ((s.dropWhile isUpperChar).dropWhile isDigitChar) then
    some (s.takeWhile isUpperChar ++
            (s.dropWhile isUpperChar).takeWhile isDigitChar,
          (s.dropWhile isUpperChar).dropWhile isDigitChar)
  else none

/-- Match the regex `[^\s:,]+` at the front of `s`: the maximal nonempty
run of FILE characters. -/
def matchFile (s : List Char) : Option (List Char × List Char) :=
  if s.takeWhile isFileChar ≠ [] then
    some (s.takeWhile isFileChar, s.dropWhile isFileChar)
  else none

/-- Match the regex `\s*<sep>\s*` at the front of `s` where `<sep>` is the
character with code `sepCode`.  Backtracking in the leading `\s*` cannot
help: a shorter whitespace run leaves the cursor on a whitespace character,
which cannot equal the (non-whitespace) separator.  So the regex matches
exactly when the maximal leading whitespace run is followed by the
separator; the trailing `\s*` is then the maximal whitespace run after
it. -/
def matchSep (sepCode : Nat) (s : List Char) : Option (List Char × List Char) :=
  match s.dropWhile isSpaceChar with
  | [] => none
  | c :: rest2 =>
    if c.toNat = sepCode then
      some (s.takeWhile isSpaceChar ++ c :: rest2.takeWhile isSpaceChar,
            rest2.dropWhile isSpaceChar)
    else none

/-- Match the regex `\s+` at the front of `s`. -/
def matchWS (s : List Char) : Option (List Char × List Char) :=
  if s.takeWhile isSpaceChar ≠ [] then
    some (s.takeWhile isSpaceChar, s.dropWhile isSpaceChar)
  else none

/-- The token kinds of `_FILE_LIST_TOKEN_TYPES`, plus the synthetic EOF
kind (the Python source represents them as the strings `"code"`, `"file"`,
`"colon"`, `"comma"`, `"ws"`, `"eof"`). -/
inductive TokenType
  | code | file | colon | comma | ws | eof
deriving DecidableEq

/-- The `_Token` named tuple: a kind together with the stripped matched
text. -/
structure _Token where
  tp : TokenType
  src : List Char
deriving DecidableEq

/-- One step of the tokenizer loop: try the five patterns of
`_FILE_LIST_TOKEN_TYPES` in their fixed priority order (CODE, FILE, COLON,
COMMA, WS) at the cursor; the first match wins.  Returns the token kind,
the raw matched span, and the remainder of the input. -/
def tokStep (s : List Char) : Option (TokenType × List Char × List Char) :=
  match matchCode s with
  | some (raw, rest) => some (.code, raw, rest)
  | none =>
    match matchFile s with
    | some (raw, rest) => some (.file, raw, rest)
    | none =>
      match matchSep 58 s with
      | some (raw, rest) => some (.colon, raw, rest)
      | none =>
        match matchSep 44 s with
        | some (raw, rest) => some (.comma, raw, rest)
        | none =>
          match matchWS s with
          | some (raw, rest) => some (.ws, raw, rest)
          | none => none

/-- The tokenizer loop of `_tokenize_files_to_codes_mapping`, fuelled by
the number of remaining iterations (each successful step consumes at least
one character, so fuel `s.length` always suffices; this is proved below).
`none` models the `AssertionError("unreachable")` branch.  Each entry of
the result pairs the raw matched span with the emitted token
(`_Token(token_name, match.group().strip())`). -/
def tokenizeSpansFuel : Nat → List Char → Option (List (List Char × _Token))
  | _, [] => some []
  | 0, _ :: _ => none
  | fuel + 1, c :: cs =>
    match tokStep (c :: cs) with
    | none => none
    | some (tp, raw, rest) =>
      (tokenizeSpansFuel fuel rest).map
        (fun l => (raw, _Token.mk tp (pyStrip raw)) :: l)

/-- Tokenizer spans at the canonical fuel. -/
def tokenizeSpans (s : List Char) : Option (List (List Char × _Token)) :=
  tokenizeSpansFuel s.length s

/-- `_tokenize_files_to_codes_mapping`: the token list (matched spans
dropped), with the single EOF token appended.  `none` models the
`AssertionError("unreachable")` branch. -/
def _tokenize_files_to_codes_mapping (s : List Char) : Option (List _Token) :=
  (tokenizeSpans s).map (fun l => l.map Prod.snd ++ [_Token.mk .eof []])

/-- The Python exceptions that the two parsers can raise. -/
inductive PyError
  | executionError (msg : List Char)
  | assertionError
deriving DecidableEq

instance {ε α : Type} [DecidableEq ε] [DecidableEq α] :
    DecidableEq (Except ε α) := fun x y =>
  match x, y with
  | .ok a, .ok b =>
    if h : a = b then .isTrue (by simp [h]) else .isFalse (by simp [h])
  | .error a, .error b =>
    if h : a = b then .isTrue (by simp [h]) else .isFalse (by simp [h])
  | .ok _, .error _ => .isFalse (by simp)
  | .error _, .ok _ => .isFalse (by simp)

/-- Python `str.splitlines()`: `c` is one of the line-break characters
(`\n`, `\r`, `\v`, `\f`, the separator controls 28–30, `\x85`, and the
Unicode line/paragraph separators). -/
def isLineBreakChar (c : Char) : Bool :=
  c.toNat = 10 || c.toNat = 13 || c.toNat = 11 || c.toNat = 12 ||
    c.toNat = 28 || c.toNat = 29 || c.toNat = 30 || c.toNat = 133 ||
    c.toNat = 8232 || c.toNat = 8233

/-- Worker for `str.splitlines(keepends)`: `cur` is the reversed current
line; `\r\n` (13 then 10) counts as a single break. -/
def splitlinesAux (keep : Bool) (cur : List Char) :
    List Char → List (List Char)
  | [] => if cur = [] then [] else [cur.reverse]
  | [c] =>
    if isLineBreakChar c then [cur.reverse ++ if keep then [c] else []]
    else [(c :: cur).reverse]
  | c :: c2 :: rest =>
    if c.toNat = 13 && c2.toNat = 10 then
      (cur.reverse ++ if keep then [c, c2] else []) ::
        splitlinesAux keep [] rest
    else if isLineBreakChar c then
      (cur.reverse ++ if keep then [c] else []) ::
        splitlinesAux keep [] (c2 :: rest)
    else
      splitlinesAux keep (c :: cur) (c2 :: rest)

/-- Python `str.splitlines(keepends)`. -/
def pySplitlines (keep : Bool) (s : List Char) : List (List Char) :=
  splitlinesAux keep [] s

/-- `textwrap.indent(text, pre)` with the default predicate: prefix every
line whose stripped content is nonempty, keeping line endings. -/
def textwrapIndent (text pre : List Char) : List Char :=
  ((pySplitlines true text).map
    (fun l => if pyStrip l ≠ [] then pre ++ l else l)).flatten

/-- The message of the `ExecutionError` built by `_unexpected_token`. -/
def unexpectedTokenMessage (value : List Char) : List Char :=
  ("Expected `per-file-ignores` to be a mapping from file exclude " ++
   "patterns to ignore codes.\n\n" ++
   "Configured `per-file-ignores` setting:\n\n").data ++
  textwrapIndent (pyStrip value) "    ".data

/-- The mutable `State` class of `parse_files_to_codes_mapping`. -/
structure PFState where
  seen_sep : Bool
  seen_colon : Bool
  filenames : List (List Char)
  codes : List (List Char)
deriving DecidableEq

/-- The `_reset` helper: emit one pair per accumulated filename when codes
were collected, then clear all the state fields. -/
def _reset (st : PFState) (ret : List (List Char × List (List Char))) :
    PFState × List (List Char × List (List Char)) :=
  (PFState.mk true false [] [],
   if st.codes ≠ [] then ret ++ st.filenames.map (fun f => (f, st.codes))
   else ret)

/-- The body of the token loop of `parse_files_to_codes_mapping` for a
single token, acting on the state and the output accumulator. -/
def pfStep (value : List Char) (st : PFState)
    (ret : List (List Char × List (List Char))) (t : _Token) :
    Except PyError (PFState × List (List Char × List (List Char))) :=
  if t.tp = .comma ∨ t.tp = .ws then
    .ok ({ st with seen_sep := true }, ret)
  else if st.seen_colon = false then
    if t.tp = .colon then
      .ok ({ st with seen_colon := true, seen_sep := true }, ret)
    else if st.seen_sep = true ∧ t.tp = .file then
      .ok ({ st with filenames := st.filenames ++ [t.src], seen_sep := false },
           ret)
    else
      .error (.executionError (unexpectedTokenMessage value))
  else
    if t.tp = .eof then
      .ok (_reset st ret)
    else if st.seen_sep = true ∧ t.tp = .code then
      .ok ({ st with codes := st.codes ++ [t.src], seen_sep := false }, ret)
    else if st.seen_sep = true ∧ t.tp = .file then
      let r := _reset st ret
      .ok ({ r.1 with filenames := [t.src], seen_sep := false }, r.2)
    else
      .error (.executionError (unexpectedTokenMessage value))

/-- The token loop of `parse_files_to_codes_mapping`. -/
def pfRun (value : List Char) (st : PFState)
    (ret : List (List Char × List (List Char))) :
    List _Token → Except PyError (List (List Char × List (List Char)))
  | [] => .ok ret
  | t :: ts =>
    match pfStep value st ret t with
    | .error e => .error e
    | .ok (st2, ret2) => pfRun value st2 ret2 ts

/-- `parse_files_to_codes_mapping` on an already-joined input string. -/
def parse_files_to_codes_mapping (value : List Char) :
    Except PyError (List (List Char × List (List Char))) :=
  if pyStrip value = [] then .ok []
  else
    match _tokenize_files_to_codes_mapping value with
    | none => .error .assertionError
    | some toks => pfRun value (PFState.mk true false [] []) [] toks

/-- Take the maximal leading run of decimal digits. -/
def takeDigits (s : List Char) : List Char × List Char :=
  (s.takeWhile isDigitChar, s.dropWhile isDigitChar)

/-- Python `int` on a nonempty decimal digit string. -/
def digitsToNat (l : List Char) : Nat :=
  l.foldl (fun a c => a * 10 + (c.toNat - 48)) 0

/-- The optional group `(?:,(\d+))?` of `DIFF_HUNK_REGEXP`: consume a
comma followed by a nonempty digit run when present (the digits are the
captured group), else consume nothing.  Backtracking cannot help: when the
group matches, the next required character is a space, and when it is
skipped the cursor rests on the same comma, which is not a space. -/
def optCountGroup (r : List Char) : Option (List Char) × List Char :=
  match r with
  | c :: rr =>
    if c.toNat = 44 then
      if (takeDigits rr).1 = [] then (none, r)
      else (some (takeDigits rr).1, (takeDigits rr).2)
    else (none, r)
  | [] => (none, r)

def hunkMatch (line : List Char) : Option (Nat × Option Nat) :=
  match line with
  | a :: b :: c :: d :: rest =>
    if a.toNat = 64 ∧ b.toNat = 64 ∧ c.toNat = 32 ∧ d.toNat = 45 then
      match takeDigits rest with
      | (d1, r1) =>
        if d1 = [] then none
        else
          match (optCountGroup r1).2 with
          | e :: f :: rest2 =>
            if e.toNat = 32 ∧ f.toNat = 43 then
              match takeDigits rest2 with
              | (g1, r3) =>
                if g1 = [] then none
                else
                  match optCountGroup r3 with
                  | (g2, r4) =>
                    match r4 with
                    | x :: y :: z :: _ =>
                      if x.toNat = 32 ∧ y.toNat = 64 ∧ z.toNat = 64 then
                        some (digitsToNat g1, g2.map digitsToNat)
                      else none
                    | _ => none
            else none
          | _ => none
    else none
  | _ => none

/-- The loop state of `parse_unified_diff`: `number_of_rows` and
`current_path` start as Python `None`, and `parsed_paths` is the
`defaultdict(set)` (modelled as an association list with unique keys, in
insertion order). -/
structure DiffState where
  number_of_rows : Option Nat
  current_path : Option (List Char)
  parsed_paths : List (List Char × Finset Nat)
deriving DecidableEq

/-- Python truthiness of the optional `number_of_rows` counter: `None` and
`0` are falsy. -/
def truthyRows : Option Nat → Bool
  | none => false
  | some n => n ≠ 0

/-- `parsed_paths[key].update(v)` on the `defaultdict(set)`: union into
the existing entry, or append a fresh entry at the end. -/
def dictUpdate (m : List (List Char × Finset Nat)) (k : List Char)
    (v : Finset Nat) : List (List Char × Finset Nat) :=
  match m with
  | [] => [(k, v)]
  | (k2, v2) :: rest =>
    if k2 = k then (k2, v2 ∪ v) :: rest else (k2, v2) :: dictUpdate rest k v

/-- The body of the line loop of `parse_unified_diff` for a single line:
countdown handling first, then the `+++` path line, then the hunk header
(whose missing count group defaults to 1, and which asserts that a path
has been seen). -/
def parse_unified_diff_step (st : DiffState) (line : List Char) :
    Except PyError DiffState :=
  if truthyRows st.number_of_rows then
    if line = [] ∨ line.head? ≠ some '-' then
      .ok { st with number_of_rows := st.number_of_rows.map (fun n => n - 1) }
    else .ok st
  else if line.take 3 = ['+', '+', '+'] then
    let p0 := (line.drop 4).takeWhile (fun c => !(c.toNat = 9))
    let p := if p0.take 2 = ['b', '/'] then p0.drop 2 else p0
    .ok { st with current_path := some p }
  else
    match hunkMatch line with
    | some (row, g2) =>
      let n := match g2 with | none => 1 | some k => k
      match st.current_path with
      | none => .error .assertionError
      | some cp =>
        .ok (DiffState.mk (some n) (some cp)
          (dictUpdate st.parsed_paths cp (Finset.Ico row (row + n))))
    | none => .ok st

/-- The line loop of `parse_unified_diff`. -/
def parse_unified_diff_lines (st : DiffState) :
    List (List Char) → Except PyError DiffState
  | [] => .ok st
  | l :: ls =>
    match parse_unified_diff_step st l with
    | .error e => .error e
    | .ok st2 => parse_unified_diff_lines st2 ls

/-- `parse_unified_diff` on an explicit diff string. -/
def parse_unified_diff (diff : List Char) :
    Except PyError (List (List Char × Finset Nat)) :=
  match parse_unified_diff_lines (DiffState.mk none none [])
      (pySplitlines false diff) with
  | .error e => .error e
  | .ok st => .ok st.parsed_paths

/-- Shorthand turning a string literal into the `List Char` model. -/
def str (s : String) : List Char := s.data

/-- `c` matches the full (unanchored) shape `[A-Z]+[0-9]*`: a nonempty run
of uppercase letters followed only by digits. -/
def codeShaped (c : List Char) : Bool :=
  !(c.takeWhile isUpperChar).isEmpty &&
    (c.dropWhile isUpperChar).all isDigitChar

/-- A valid filename token for a mapping group: nonempty, made of FILE
characters, and not shaped like a CODE token (else the tokenizer could
classify it as a code at a comma boundary). -/
def goodFile (f : List Char) : Bool :=
  !f.isEmpty && f.all isFileChar && !codeShaped f

/-- A well-formed mapping group: a nonempty comma-separable filename list
and a nonempty code list. -/
def goodGroup (g : List (List Char) × List (List Char)) : Bool :=
  !g.1.isEmpty && !g.2.isEmpty && g.1.all goodFile && g.2.all codeShaped

def goodGroups (gs : List (List (List Char) × List (List Char))) : Bool :=
  gs.all goodGroup

/-- Render a list of names separated by single commas. -/
def renderNames : List (List Char) → List Char
  | [] => []
  | [x] => x
  | x :: y :: rest => x ++ ',' :: renderNames (y :: rest)

/-- Render one `filenames : codes` group. -/
def renderGroup (g : List (List Char) × List (List Char)) : List Char :=
  renderNames g.1 ++ ':' :: renderNames g.2

/-- Render a whole mapping string: groups separated by newlines. -/
def renderGroups : List (List (List Char) × List (List Char)) → List Char
  | [] => []
  | [g] => renderGroup g
  | g :: g2 :: rest => renderGroup g ++ '\n' :: renderGroups (g2 :: rest)

/-- The declared meaning of a mapping: one pair per declared filename, in
declaration order, each paired with its group's code list. -/
def expand (gs : List (List (List Char) × List (List Char))) :
    List (List Char × List (List Char)) :=
  (gs.map (fun g => g.1.map (fun f => (f, g.2)))).flatten

/-- The token sequence of a comma-separated name list. -/
def nameToks (tp : TokenType) : List (List Char) → List _Token
  | [] => []
  | [x] => [_Token.mk tp x]
  | x :: y :: rest =>
    _Token.mk tp x :: _Token.mk .comma [','] :: nameToks tp (y :: rest)

/-- The token sequence of one rendered group. -/
def groupToks (g : List (List Char) × List (List Char)) : List _Token :=
  nameToks .file g.1 ++ _Token.mk .colon [':'] :: nameToks .code g.2

/-- The token sequence of a rendered mapping string (without EOF). -/
def gsToks : List (List (List Char) × List (List Char)) → List _Token
  | [] => []
  | [g] => groupToks g
  | g :: g2 :: rest => groupToks g ++ _Token.mk .ws [] :: gsToks (g2 :: rest)

/-- One hunk of a structured unified diff: the old-range digit strings,
the new-start digit string, the optional new-count digit string, trailing
text after the closing `@@`, and the hunk body lines. -/
structure Hunk where
  oldStr : List Char
  oldCnt : Option (List Char)
  startStr : List Char
  countStr : Option (List Char)
  trailing : List Char
  body : List (List Char)

/-- One file section of a structured unified diff: the text after
`+++ ` and the hunks that follow the path line. -/
structure FileSec where
  payload : List Char
  hunks : List Hunk

/-- Render the `@@ -old +new @@` header line of a hunk. -/
def renderHunkHeader (h : Hunk) : List Char :=
  '@' :: '@' :: ' ' :: '-' :: (h.oldStr ++
    ((match h.oldCnt with | none => [] | some o => ',' :: o) ++
      (' ' :: '+' :: (h.startStr ++
        ((match h.countStr with | none => [] | some c => ',' :: c) ++
          (' ' :: '@' :: '@' :: h.trailing))))))

/-- The lines contributed by one hunk: its header, then its body. -/
def hunkLines (h : Hunk) : List (List Char) := renderHunkHeader h :: h.body

/-- The lines contributed by one file section: its `+++ ` path line, then
its hunks. -/
def secLines (s : FileSec) : List (List Char) :=
  ('+' :: '+' :: '+' :: ' ' :: s.payload) :: (s.hunks.map hunkLines).flatten

/-- All the lines of a structured diff. -/
def diffLines (secs : List FileSec) : List (List Char) :=
  (secs.map secLines).flatten

/-- Render a structured diff as one string, each line ended by `\n`. -/
def renderDiff (secs : List FileSec) : List Char :=
  ((diffLines secs).map (fun l => l ++ ['\n'])).flatten

/-- The new-start number declared by a hunk. -/
def specStart (h : Hunk) : Nat := digitsToNat h.startStr

/-- The new-count number declared by a hunk; a missing count group
defaults to 1. -/
def specCount (h : Hunk) : Nat :=
  match h.countStr with | none => 1 | some c => digitsToNat c

/-- The interval of new-file line numbers declared by a hunk. -/
def specSet (h : Hunk) : Finset Nat :=
  Finset.Ico (specStart h) (specStart h + specCount h)

/-- The path named by a `+++ ` payload: truncated at the first tab, with a
leading `b/` stripped. -/
def extractPath (payload : List Char) : List Char :=
  if (payload.takeWhile (fun c => !(c.toNat = 9))).take 2 = ['b', '/'] then
    (payload.takeWhile (fun c => !(c.toNat = 9))).drop 2
  else payload.takeWhile (fun c => !(c.toNat = 9))

/-- No character of `l` is a line-break character, so `l` survives the
render/split round trip as one line. -/
def noBreaks (l : List Char) : Bool := l.all (fun c => !(isLineBreakChar c))

/-- A nonempty decimal digit string. -/
def digitsOk (d : List Char) : Bool := !d.isEmpty && d.all isDigitChar

/-- A hunk-body line that counts against the row countdown: empty, or not
starting with `-` (45). -/
def countingLine : List Char → Bool
  | [] => true
  | c :: _ => !(c.toNat = 45)

/-- The body lines consume the countdown exactly: `n` counting lines, with
the countdown reaching zero exactly at the end of the body. -/
def bodyConsumes : Nat → List (List Char) → Bool
  | 0, [] => true
  | 0, _ :: _ => false
  | _ + 1, [] => false
  | n + 1, l :: ls =>
    if countingLine l then bodyConsumes n ls else bodyConsumes (n + 1) ls

/-- Well-formedness of one hunk of a structured diff. -/
def hunkOk (h : Hunk) : Bool :=
  digitsOk h.startStr &&
    (match h.countStr with | none => true | some c => digitsOk c) &&
    digitsOk h.oldStr &&
    (match h.oldCnt with | none => true | some o => digitsOk o) &&
    noBreaks h.trailing &&
    h.body.all noBreaks &&
    bodyConsumes (specCount h) h.body

/-- Well-formedness of one file section. -/
def secOk (s : FileSec) : Bool := noBreaks s.payload && s.hunks.all hunkOk

/-- Well-formedness of a structured diff. -/
def diffOk (secs : List FileSec) : Bool := secs.all secOk

/-- First-match lookup in the association-list model of the result dict. -/
def assocLookup (m : List (List Char × Finset Nat)) (k : List Char) :
    Option (Finset Nat) :=
  match m with
  | [] => none
  | (k2, v) :: rest => if k2 = k then some v else assocLookup rest k

/-- Does some section of the diff declare path `p` with at least one hunk
(the only way a key enters the result dict)? -/
def hasKey (secs : List FileSec) (p : List Char) : Bool :=
  secs.any (fun s => decide (extractPath s.payload = p) && !s.hunks.isEmpty)

/-- The intervals contributed to path `p` by one section. -/
def secSets (sec : FileSec) (p : List Char) : List (Finset Nat) :=
  if extractPath sec.payload = p then sec.hunks.map specSet else []

/-- The union of a list of finite sets. -/
def unionList (l : List (Finset Nat)) : Finset Nat :=
  l.foldl (fun a b => a ∪ b) ∅

/-- The union of all intervals that the diff's hunks declare for path
`p`. -/
def unionSets (secs : List FileSec) (p : List Char) : Finset Nat :=
  unionList ((secs.map (fun s => secSets s p)).flatten)

/-! Character-class facts. -/

lemma upper_not_space {c : Char} (h : isUpperChar c = true) :
    isSpaceChar c = false := by
  simp only [isUpperChar, isSpaceChar, Bool.and_eq_true, Bool.or_eq_false_iff,
    decide_eq_true_eq, decide_eq_false_iff_not] at h ⊢
  omega

lemma digit_not_space {c : Char} (h : isDigitChar c = true) :
    isSpaceChar c = false := by
  simp only [isDigitChar, isSpaceChar, Bool.and_eq_true, Bool.or_eq_false_iff,
    decide_eq_true_eq, decide_eq_false_iff_not] at h ⊢
  omega

lemma upper_isFile {c : Char} (h : isUpperChar c = true) :
    isFileChar c = true := by
  simp only [isUpperChar, isFileChar, isSpaceChar, Bool.and_eq_true,
    Bool.not_eq_true', Bool.or_eq_false_iff, decide_eq_true_eq,
    decide_eq_false_iff_not] at h ⊢
  omega

lemma digit_isFile {c : Char} (h : isDigitChar c = true) :
    isFileChar c = true := by
  simp only [isDigitChar, isFileChar, isSpaceChar, Bool.and_eq_true,
    Bool.not_eq_true', Bool.or_eq_false_iff, decide_eq_true_eq,
    decide_eq_false_iff_not] at h ⊢
  omega

lemma file_not_space {c : Char} (h : isFileChar c = true) :
    isSpaceChar c = false := by
  simp only [isFileChar, Bool.and_eq_true, Bool.not_eq_true'] at h
  exact h.1.1

lemma file_not_upper_of_not {c : Char} (h : isFileChar c = false)
    (hs : isSpaceChar c = false) : c.toNat = 58 ∨ c.toNat = 44 := by
  simp only [isFileChar, Bool.and_eq_false_iff, Bool.not_eq_false,
    Bool.not_eq_false', Bool.not_eq_true', decide_eq_true_eq] at h
  rcases h with (h | h) | h
  · rw [hs] at h; cases h
  · exact Or.inl h
  · exact Or.inr h

lemma colon_not_file : isFileChar ':' = false := by decide

lemma colon_not_space : isSpaceChar ':' = false := by decide

lemma colon_not_upper : isUpperChar ':' = false := by decide

lemma colon_not_digit : isDigitChar ':' = false := by decide

lemma comma_not_file : isFileChar ',' = false := by decide

lemma comma_not_space : isSpaceChar ',' = false := by decide

lemma newline_is_space : isSpaceChar '\n' = true := by decide

lemma space_not_upper {c : Char} (h : isSpaceChar c = true) :
    isUpperChar c = false := by
  cases hu : isUpperChar c
  · rfl
  · rw [upper_not_space hu] at h; cases h

lemma space_not_digit {c : Char} (h : isSpaceChar c = true) :
    isDigitChar c = false := by
  cases hu : isDigitChar c
  · rfl
  · rw [digit_not_space hu] at h; cases h

lemma space_not_file {c : Char} (h : isSpaceChar c = true) :
    isFileChar c = false := by
  cases hu : isFileChar c
  · rfl
  · rw [file_not_space hu] at h; cases h

/-! Boundary behaviour of `takeWhile` and `dropWhile` over an append. -/

lemma takeWhile_app {p : Char → Bool} : ∀ a b : List Char,
    (∀ c ∈ a, p c = true) → (∀ c, b.head? = some c → p c = false) →
    (a ++ b).takeWhile p = a ∧ (a ++ b).dropWhile p = b := by
  intro a
  induction a with
  | nil =>
    intro b _ hb
    cases b with
    | nil => simp
    | cons c cs =>
      have hc := hb c rfl
      simp [List.takeWhile_cons, List.dropWhile_cons, hc]
  | cons x a ih =>
    intro b ha hb
    have hx : p x = true := ha x (by simp)
    have h2 := ih b (fun c hc => ha c (by simp [hc])) hb
    simp [List.takeWhile_cons, List.dropWhile_cons, hx, h2.1, h2.2]

lemma dropWhile_all_false {p : Char → Bool} : ∀ s : List Char,
    (∀ c ∈ s, p c = false) → s.dropWhile p = s := by
  intro s h
  cases s with
  | nil => rfl
  | cons c cs => simp [List.dropWhile_cons, h c (by simp)]

lemma pyStrip_eq_self {s : List Char}
    (h : ∀ c ∈ s, isSpaceChar c = false) : pyStrip s = s := by
  unfold pyStrip
  rw [dropWhile_all_false s h,
    dropWhile_all_false s.reverse (fun c hc => h c (List.mem_reverse.mp hc)),
    List.reverse_reverse]

lemma pyStrip_ne_nil {s : List Char} {c : Char} (hc : c ∈ s)
    (h : isSpaceChar c = false) : pyStrip s ≠ [] := by
  intro he
  unfold pyStrip at he
  rw [List.reverse_eq_nil_iff, List.dropWhile_eq_nil_iff] at he
  have h1 : ∀ x ∈ s.dropWhile isSpaceChar, isSpaceChar x = true := by
    intro x hx
    exact he x (by simpa using hx)
  have h2 : s.dropWhile isSpaceChar = [] := by
    cases hd : s.dropWhile isSpaceChar with
    | nil => rfl
    | cons y ys =>
      have hy : isSpaceChar y = false := by
        have := List.head?_dropWhile_not isSpaceChar s
        rw [hd] at this
        simpa using this
      have := h1 y (by rw [hd]; simp)
      rw [hy] at this; cases this
  rw [List.dropWhile_eq_nil_iff] at h2
  have := h2 c hc
  rw [h] at this; cases this

/-! Soundness and exhaustiveness of the tokenizer step. -/

lemma matchCode_sound {s raw rest : List Char}
    (h : matchCode s = some (raw, rest)) : raw ++ rest = s ∧ raw ≠ [] := by
  unfold matchCode at h
  split at h
  · rename_i hc
    injection h with h1
    injection h1 with h1 h2
    subst h1; subst h2
    constructor
    · rw [List.append_assoc, List.takeWhile_append_dropWhile,
        List.takeWhile_append_dropWhile]
    · intro hne
      exact hc.1 (by simpa using List.append_eq_nil.mp hne |>.1)
  · cases h

lemma matchFile_sound {s raw rest : List Char}
    (h : matchFile s = some (raw, rest)) : raw ++ rest = s ∧ raw ≠ [] := by
  unfold matchFile at h
  split at h
  · rename_i hc
    injection h with h1
    injection h1 with h1 h2
    subst h1; subst h2
    exact ⟨List.takeWhile_append_dropWhile _ _, hc⟩
  · cases h

lemma matchSep_sound {k : Nat} {s raw rest : List Char}
    (h : matchSep k s = some (raw, rest)) : raw ++ rest = s ∧ raw ≠ [] := by
  unfold matchSep at h
  split at h
  · cases h
  · rename_i c rest2 hd
    split at h
    · injection h with h1
      injection h1 with h1 h2
      subst h1; subst h2
      constructor
      · have : s.takeWhile isSpaceChar ++ s.dropWhile isSpaceChar = s :=
          List.takeWhile_append_dropWhile _ _
        rw [List.append_assoc, List.cons_append,
          List.takeWhile_append_dropWhile]
        rw [hd] at this
        exact this
      · simp
    · cases h

lemma matchWS_sound {s raw rest : List Char}
    (h : matchWS s = some (raw, rest)) : raw ++ rest = s ∧ raw ≠ [] := by
  unfold matchWS at h
  split at h
  · rename_i hc
    injection h with h1
    injection h1 with h1 h2
    subst h1; subst h2
    exact ⟨List.takeWhile_append_dropWhile _ _, hc⟩
  · cases h

lemma tokStep_sound {s : List Char} {tp : TokenType} {raw rest : List Char}
    (h : tokStep s = some (tp, raw, rest)) : raw ++ rest = s ∧ raw ≠ [] := by
  unfold tokStep at h
  cases h1 : matchCode s with
  | some v =>
    rw [h1] at h
    obtain ⟨r1, r2⟩ := v
    injection h with h
    injection h with _ h
    injection h with ha hb
    subst ha; subst hb
    exact matchCode_sound h1
  | none =>
    rw [h1] at h
    cases h2 : matchFile s with
    | some v =>
      rw [h2] at h
      obtain ⟨r1, r2⟩ := v
      injection h with h
      injection h with _ h
      injection h with ha hb
      subst ha; subst hb
      exact matchFile_sound h2
    | none =>
      rw [h2] at h
      cases h3 : matchSep 58 s with
      | some v =>
        rw [h3] at h
        obtain ⟨r1, r2⟩ := v
        injection h with h
        injection h with _ h
        injection h with ha hb
        subst ha; subst hb
        exact matchSep_sound h3
      | none =>
        rw [h3] at h
        cases h4 : matchSep 44 s with
        | some v =>
          rw [h4] at h
          obtain ⟨r1, r2⟩ := v
          injection h with h
          injection h with _ h
          injection h with ha hb
          subst ha; subst hb
          exact matchSep_sound h4
        | none =>
          rw [h4] at h
          cases h5 : matchWS s with
          | some v =>
            rw [h5] at h
            obtain ⟨r1, r2⟩ := v
            injection h with h
            injection h with _ h
            injection h with ha hb
            subst ha; subst hb
            exact matchWS_sound h5
          | none => rw [h5] at h; cases h

lemma tokStep_rest_length {s : List Char} {tp : TokenType}
    {raw rest : List Char} (h : tokStep s = some (tp, raw, rest)) :
    rest.length < s.length := by
  obtain ⟨happ, hne⟩ := tokStep_sound h
  have : raw.length + rest.length = s.length := by
    rw [← happ, List.length_append]
  have : 1 ≤ raw.length := by
    cases raw with
    | nil => exact absurd rfl hne
    | cons _ _ => simp
  omega

lemma tokStep_total (c : Char) (cs : List Char) :
    tokStep (c :: cs) ≠ none := by
  intro h
  unfold tokStep at h
  cases h1 : matchCode (c :: cs) with
  | some v => rw [h1] at h; obtain ⟨a, b⟩ := v; cases h
  | none =>
  rw [h1] at h
  cases h2 : matchFile (c :: cs) with
  | some v => rw [h2] at h; obtain ⟨a, b⟩ := v; cases h
  | none =>
  rw [h2] at h
  cases h3 : matchSep 58 (c :: cs) with
  | some v => rw [h3] at h; obtain ⟨a, b⟩ := v; cases h
  | none =>
  rw [h3] at h
  cases h4 : matchSep 44 (c :: cs) with
  | some v => rw [h4] at h; obtain ⟨a, b⟩ := v; cases h
  | none =>
  rw [h4] at h
  cases h5 : matchWS (c :: cs) with
  | some v => rw [h5] at h; obtain ⟨a, b⟩ := v; cases h
  | none =>
  -- all five matchers failed: derive a contradiction about `c`
  have hws : isSpaceChar c = false := by
    unfold matchWS at h5
    split at h5
    · cases h5
    · rename_i hcond
      by_contra hb
      rw [Bool.not_eq_false] at hb
      exact hcond (by simp [List.takeWhile_cons, hb])
  have hfile : isFileChar c = false := by
    unfold matchFile at h2
    split at h2
    · cases h2
    · rename_i hcond
      by_contra hb
      rw [Bool.not_eq_false] at hb
      exact hcond (by simp [List.takeWhile_cons, hb])
  have hdrop : (c :: cs).dropWhile isSpaceChar = c :: cs := by
    simp [List.dropWhile_cons, hws]
  rcases file_not_upper_of_not hfile hws with h58 | h44
  · unfold matchSep at h3
    rw [hdrop] at h3
    simp [h58] at h3
  · unfold matchSep at h4
    rw [hdrop] at h4
    simp [h44] at h4

/-! Fuel stability of the tokenizer and its one-step unfolding. -/

lemma tsf_stable : ∀ (f1 : Nat) (s : List Char) (f2 : Nat),
    s.length ≤ f1 → s.length ≤ f2 →
    tokenizeSpansFuel f1 s = tokenizeSpansFuel f2 s := by
  intro f1
  induction f1 with
  | zero =>
    intro s f2 h1 _
    have hs : s = [] := by
      cases s with
      | nil => rfl
      | cons _ _ => simp at h1
    subst hs
    cases f2 <;> rfl
  | succ n ih =>
    intro s f2 h1 h2
    cases s with
    | nil => cases f2 <;> rfl
    | cons c cs =>
      cases f2 with
      | zero => simp at h2
      | succ m =>
        cases htok : tokStep (c :: cs) with
        | none => simp only [tokenizeSpansFuel, htok]
        | some v =>
          obtain ⟨tp, raw, rest⟩ := v
          have hlt := tokStep_rest_length htok
          simp only [List.length_cons] at h1 h2 hlt
          simp only [tokenizeSpansFuel, htok]
          rw [ih rest m (by omega) (by omega)]

lemma ts_cons {s : List Char} {tp : TokenType} {raw rest : List Char}
    (h : tokStep s = some (tp, raw, rest)) :
    tokenizeSpans s =
      (tokenizeSpans rest).map
        (fun l => (raw, _Token.mk tp (pyStrip raw)) :: l) := by
  cases s with
  | nil =>
    have : tokStep ([] : List Char) = none := by rfl
    rw [this] at h; cases h
  | cons c cs =>
    have hlt := tokStep_rest_length h
    simp only [List.length_cons] at hlt
    unfold tokenizeSpans
    simp only [List.length_cons, tokenizeSpansFuel, h]
    rw [tsf_stable cs.length rest rest.length (by omega) (by omega)]

lemma ts_nil : tokenizeSpans [] = some [] := rfl

/-! Classification of the tokenizer step at the chunk boundaries produced
by rendering a mapping configuration. -/

lemma head?_dropWhile_false {p : Char → Bool} (l : List Char) :
    ∀ c, (l.dropWhile p).head? = some c → p c = false := by
  intro c hc
  have := List.head?_dropWhile_not p l
  rw [hc] at this
  simpa using this

lemma c44_not_upper {c : Char} (h : c.toNat = 44) : isUpperChar c = false := by
  simp only [isUpperChar, Bool.and_eq_false_iff, decide_eq_false_iff_not]
  omega

lemma c44_not_digit {c : Char} (h : c.toNat = 44) : isDigitChar c = false := by
  simp only [isDigitChar, Bool.and_eq_false_iff, decide_eq_false_iff_not]
  omega

lemma file_ne_sep {c : Char} (h : isFileChar c = true) :
    ¬(c.toNat = 58) ∧ ¬(c.toNat = 44) := by
  simp only [isFileChar, Bool.and_eq_true, Bool.not_eq_true',
    decide_eq_false_iff_not] at h
  exact ⟨h.1.2, h.2⟩

lemma file_not_upper_boundary {c : Char} (h : isFileChar c = false) :
    isUpperChar c = false ∧ isDigitChar c = false := by
  constructor
  · cases hu : isUpperChar c
    · rfl
    · rw [upper_isFile hu] at h; cases h
  · cases hu : isDigitChar c
    · rfl
    · rw [digit_isFile hu] at h; cases h

/-- The upper run of `matchCode` on a chunk followed by a boundary that is
neither an uppercase letter nor a digit stays inside the chunk. -/
lemma upper_digit_split {f rest : List Char}
    (hb : ∀ c, rest.head? = some c →
      isUpperChar c = false ∧ isDigitChar c = false) :
    (f ++ rest).takeWhile isUpperChar = f.takeWhile isUpperChar ∧
      (f ++ rest).dropWhile isUpperChar = f.dropWhile isUpperChar ++ rest ∧
      (f.dropWhile isUpperChar ++ rest).takeWhile isDigitChar =
        (f.dropWhile isUpperChar).takeWhile isDigitChar ∧
      (f.dropWhile isUpperChar ++ rest).dropWhile isDigitChar =
        (f.dropWhile isUpperChar).dropWhile isDigitChar ++ rest := by
  have hR1head : ∀ c, (f.dropWhile isUpperChar ++ rest).head? = some c →
      isUpperChar c = false := by
    intro c hc
    cases hR1 : f.dropWhile isUpperChar with
    | nil =>
      rw [hR1] at hc
      simp only [List.nil_append] at hc
      exact (hb c hc).1
    | cons y ys =>
      rw [hR1] at hc
      simp only [List.cons_append, List.head?_cons, Option.some_inj] at hc
      have hy := head?_dropWhile_false (p := isUpperChar) f
      rw [hR1] at hy
      exact hc ▸ hy y rfl
  have hR2head : ∀ c,
      ((f.dropWhile isUpperChar).dropWhile isDigitChar ++ rest).head? =
        some c → isDigitChar c = false := by
    intro c hc
    cases hR2 : (f.dropWhile isUpperChar).dropWhile isDigitChar with
    | nil =>
      rw [hR2] at hc
      simp only [List.nil_append] at hc
      exact (hb c hc).2
    | cons y ys =>
      rw [hR2] at hc
      simp only [List.cons_append, List.head?_cons, Option.some_inj] at hc
      have hy := head?_dropWhile_false (p := isDigitChar)
        (f.dropWhile isUpperChar)
      rw [hR2] at hy
      exact hc ▸ hy y rfl
  have hsplit1 := takeWhile_app (p := isUpperChar)
    (f.takeWhile isUpperChar) (f.dropWhile isUpperChar ++ rest)
    (fun c hc => List.mem_takeWhile_imp hc) hR1head
  have hfA : f.takeWhile isUpperChar ++ (f.dropWhile isUpperChar ++ rest) =
      f ++ rest := by
    rw [← List.append_assoc, List.takeWhile_append_dropWhile]
  rw [hfA] at hsplit1
  have hsplit2 := takeWhile_app (p := isDigitChar)
    ((f.dropWhile isUpperChar).takeWhile isDigitChar)
    ((f.dropWhile isUpperChar).dropWhile isDigitChar ++ rest)
    (fun c hc => List.mem_takeWhile_imp hc) hR2head
  have hfB : (f.dropWhile isUpperChar).takeWhile isDigitChar ++
      ((f.dropWhile isUpperChar).dropWhile isDigitChar ++ rest) =
      f.dropWhile isUpperChar ++ rest := by
    rw [← List.append_assoc, List.takeWhile_append_dropWhile]
  rw [hfB] at hsplit2
  exact ⟨hsplit1.1, hsplit1.2, hsplit2.1, hsplit2.2⟩

lemma matchCode_none_of_file {f rest : List Char}
    (hall : ∀ c ∈ f, isFileChar c = true)
    (hcs : codeShaped f = false)
    (hb : ∀ c, rest.head? = some c → isFileChar c = false) :
    matchCode (f ++ rest) = none := by
  have hsp := @upper_digit_split f rest
    (fun c hc => file_not_upper_boundary (hb c hc))
  unfold matchCode
  rw [hsp.1, hsp.2.1, hsp.2.2.2]
  rw [if_neg]
  intro hcond
  obtain ⟨hU, hbound⟩ := hcond
  cases hR2 : (f.dropWhile isUpperChar).dropWhile isDigitChar with
  | cons y ys =>
    have hyf : isFileChar y = true := by
      have hy1 : y ∈ (f.dropWhile isUpperChar).dropWhile isDigitChar := by
        rw [hR2]; simp
      exact hall y ((List.dropWhile_sublist _).mem
        ((List.dropWhile_sublist _).mem hy1))
    rw [hR2] at hbound
    simp only [List.cons_append, codeBoundary, Bool.or_eq_true,
      decide_eq_true_eq] at hbound
    rcases hbound with hsp2 | h44
    · rw [file_not_space hyf] at hsp2; cases hsp2
    · exact (file_ne_sep hyf).2 h44
  | nil =>
    have hdig := List.dropWhile_eq_nil_iff.mp hR2
    have : codeShaped f = true := by
      unfold codeShaped
      rw [Bool.and_eq_true]
      constructor
      · simp [List.isEmpty_iff, hU]
      · rw [List.all_eq_true]
        exact hdig
    rw [this] at hcs; cases hcs

lemma tokStep_file {f rest : List Char}
    (hne : f ≠ []) (hall : ∀ c ∈ f, isFileChar c = true)
    (hcs : codeShaped f = false)
    (hb : ∀ c, rest.head? = some c → isFileChar c = false) :
    tokStep (f ++ rest) = some (.file, f, rest) := by
  have hcode := matchCode_none_of_file hall hcs hb
  have hfile : matchFile (f ++ rest) = some (f, rest) := by
    have hsp := takeWhile_app (p := isFileChar) f rest hall hb
    unfold matchFile
    rw [hsp.1, hsp.2, if_pos hne]
  simp [tokStep, hcode, hfile]

lemma tokStep_code {c rest : List Char}
    (hcs : codeShaped c = true) (hb : codeBoundary rest = true) :
    tokStep (c ++ rest) = some (.code, c, rest) := by
  have hcs2 := hcs
  simp only [codeShaped, Bool.and_eq_true, List.all_eq_true] at hcs2
  obtain ⟨hU, hD⟩ := hcs2
  have hUne : c.takeWhile isUpperChar ≠ [] := by
    simpa [List.isEmpty_iff] using hU
  have hbhead : ∀ x, rest.head? = some x →
      isUpperChar x = false ∧ isDigitChar x = false := by
    intro x hx
    cases rest with
    | nil => cases hx
    | cons y ys =>
      simp only [List.head?_cons, Option.some_inj] at hx
      simp only [codeBoundary, Bool.or_eq_true, decide_eq_true_eq] at hb
      rcases hb with hsp | h44
      · exact hx ▸ ⟨space_not_upper hsp, space_not_digit hsp⟩
      · exact hx ▸ ⟨c44_not_upper h44, c44_not_digit h44⟩
  have hsp := @upper_digit_split c rest hbhead
  have hdigits : (c.dropWhile isUpperChar).takeWhile isDigitChar =
      c.dropWhile isUpperChar ∧
      (c.dropWhile isUpperChar).dropWhile isDigitChar = [] := by
    constructor
    · exact List.takeWhile_eq_self_iff.mpr hD
    · exact List.dropWhile_eq_nil_iff.mpr hD
  have hcode : matchCode (c ++ rest) = some (c, rest) := by
    unfold matchCode
    rw [hsp.1, hsp.2.1, hsp.2.2.1, hsp.2.2.2, hdigits.1, hdigits.2]
    rw [if_pos ⟨hUne, by simpa using hb⟩]
    rw [show c.takeWhile isUpperChar ++ c.dropWhile isUpperChar = c from
      List.takeWhile_append_dropWhile _ _]
    simp
  simp [tokStep, hcode]

lemma tokStep_colon {rest : List Char}
    (hb : ∀ c, rest.head? = some c → isSpaceChar c = false) :
    tokStep (':' :: rest) = some (.colon, [':'], rest) := by
  have hrest_tw : rest.takeWhile isSpaceChar = [] := by
    cases rest with
    | nil => rfl
    | cons y ys => simp [List.takeWhile_cons, hb y rfl]
  have hrest_dw : rest.dropWhile isSpaceChar = rest := by
    cases rest with
    | nil => rfl
    | cons y ys => simp [List.dropWhile_cons, hb y rfl]
  have hcode : matchCode (':' :: rest) = none := by
    unfold matchCode
    rw [if_neg]
    intro hcond
    exact hcond.1 (by simp [List.takeWhile_cons, colon_not_upper])
  have hfile : matchFile (':' :: rest) = none := by
    unfold matchFile
    rw [if_neg]
    intro hcond
    exact hcond (by simp [List.takeWhile_cons, colon_not_file])
  have h1 : (':' :: rest).dropWhile isSpaceChar = ':' :: rest := by
    simp [List.dropWhile_cons, colon_not_space]
  have h2 : (':' :: rest).takeWhile isSpaceChar = [] := by
    simp [List.takeWhile_cons, colon_not_space]
  have hsep : matchSep 58 (':' :: rest) = some ([':'], rest) := by
    simp [matchSep, h1, h2, show (':').toNat = 58 by decide, hrest_tw,
      hrest_dw]
  simp [tokStep, hcode, hfile, hsep]

lemma tokStep_comma {rest : List Char}
    (hb : ∀ c, rest.head? = some c → isSpaceChar c = false) :
    tokStep (',' :: rest) = some (.comma, [','], rest) := by
  have hrest_tw : rest.takeWhile isSpaceChar = [] := by
    cases rest with
    | nil => rfl
    | cons y ys => simp [List.takeWhile_cons, hb y rfl]
  have hrest_dw : rest.dropWhile isSpaceChar = rest := by
    cases rest with
    | nil => rfl
    | cons y ys => simp [List.dropWhile_cons, hb y rfl]
  have hcode : matchCode (',' :: rest) = none := by
    unfold matchCode
    rw [if_neg]
    intro hcond
    exact hcond.1
      (by simp [List.takeWhile_cons, show isUpperChar ',' = false by decide])
  have hfile : matchFile (',' :: rest) = none := by
    unfold matchFile
    rw [if_neg]
    intro hcond
    exact hcond (by simp [List.takeWhile_cons, comma_not_file])
  have h1 : (',' :: rest).dropWhile isSpaceChar = ',' :: rest := by
    simp [List.dropWhile_cons, comma_not_space]
  have h2 : (',' :: rest).takeWhile isSpaceChar = [] := by
    simp [List.takeWhile_cons, comma_not_space]
  have hsep58 : matchSep 58 (',' :: rest) = none := by
    simp [matchSep, h1, show (',').toNat = 44 by decide]
  have hsep44 : matchSep 44 (',' :: rest) = some ([','], rest) := by
    simp [matchSep, h1, h2, show (',').toNat = 44 by decide, hrest_tw,
      hrest_dw]
  simp [tokStep, hcode, hfile, hsep58, hsep44]

lemma tokStep_ws_newline {rest : List Char}
    (hb : ∀ c, rest.head? = some c → isFileChar c = true) :
    tokStep ('\n' :: rest) = some (.ws, ['\n'], rest) := by
  have hrest_dw : rest.dropWhile isSpaceChar = rest := by
    cases rest with
    | nil => rfl
    | cons y ys => simp [List.dropWhile_cons, file_not_space (hb y rfl)]
  have hrest_tw : rest.takeWhile isSpaceChar = [] := by
    cases rest with
    | nil => rfl
    | cons y ys => simp [List.takeWhile_cons, file_not_space (hb y rfl)]
  have hcode : matchCode ('\n' :: rest) = none := by
    unfold matchCode
    rw [if_neg]
    intro hcond
    exact hcond.1
      (by simp [List.takeWhile_cons, show isUpperChar '\n' = false by decide])
  have hfile : matchFile ('\n' :: rest) = none := by
    unfold matchFile
    rw [if_neg]
    intro hcond
    exact hcond
      (by simp [List.takeWhile_cons, show isFileChar '\n' = false by decide])
  have hdw : ('\n' :: rest).dropWhile isSpaceChar = rest := by
    rw [List.dropWhile_cons, if_pos (by decide)]
    exact hrest_dw
  have hsep58 : matchSep 58 ('\n' :: rest) = none := by
    unfold matchSep
    rw [hdw]
    cases rest with
    | nil => rfl
    | cons y ys =>
      simp [(file_ne_sep (hb y rfl)).1]
  have hsep44 : matchSep 44 ('\n' :: rest) = none := by
    unfold matchSep
    rw [hdw]
    cases rest with
    | nil => rfl
    | cons y ys =>
      simp [(file_ne_sep (hb y rfl)).2]
  have hws : matchWS ('\n' :: rest) = some (['\n'], rest) := by
    unfold matchWS
    rw [show ('\n' :: rest).takeWhile isSpaceChar = ['\n'] by
        simp [List.takeWhile_cons, newline_is_space, hrest_tw],
      hdw]
    rw [if_pos (by simp)]
  simp [tokStep, hcode, hfile, hsep58, hsep44, hws]

/-! Tokenizing a rendered mapping configuration. -/

lemma goodFile_spec {f : List Char} (h : goodFile f = true) :
    f ≠ [] ∧ (∀ c ∈ f, isFileChar c = true) ∧ codeShaped f = false := by
  simp only [goodFile, Bool.and_eq_true, Bool.not_eq_true',
    List.all_eq_true] at h
  exact ⟨by simpa [List.isEmpty_iff] using h.1.1, h.1.2, h.2⟩

lemma codeShaped_ne_nil {c : List Char} (h : codeShaped c = true) : c ≠ [] := by
  intro he
  subst he
  simp [codeShaped] at h

lemma codeShaped_not_space {c : List Char} (h : codeShaped c = true) :
    ∀ ch ∈ c, isSpaceChar ch = false := by
  intro ch hm
  simp only [codeShaped, Bool.and_eq_true, List.all_eq_true] at h
  have hc : c.takeWhile isUpperChar ++ c.dropWhile isUpperChar = c :=
    List.takeWhile_append_dropWhile _ _
  rw [← hc] at hm
  rcases List.mem_append.mp hm with hm | hm
  · exact upper_not_space (List.mem_takeWhile_imp hm)
  · exact digit_not_space (h.2 ch hm)

lemma codeShaped_head_upper {c : List Char} (h : codeShaped c = true) :
    ∀ ch, c.head? = some ch → isUpperChar ch = true := by
  intro ch hm
  simp only [codeShaped, Bool.and_eq_true] at h
  cases hU : c.takeWhile isUpperChar with
  | nil => rw [hU] at h; simp at h
  | cons u us =>
    have hc : c.takeWhile isUpperChar ++ c.dropWhile isUpperChar = c :=
      List.takeWhile_append_dropWhile _ _
    rw [hU] at hc
    rw [← hc] at hm
    simp only [List.cons_append, List.head?_cons, Option.some_inj] at hm
    have : u ∈ c.takeWhile isUpperChar := by rw [hU]; simp
    exact hm ▸ List.mem_takeWhile_imp this

lemma pyStrip_file {f : List Char} (hall : ∀ c ∈ f, isFileChar c = true) :
    pyStrip f = f :=
  pyStrip_eq_self (fun c hc => file_not_space (hall c hc))

lemma pyStrip_code {c : List Char} (h : codeShaped c = true) :
    pyStrip c = c :=
  pyStrip_eq_self (codeShaped_not_space h)

lemma renderNames_cons (x : List Char) (r : List (List Char)) :
    ∃ X, renderNames (x :: r) = x ++ X := by
  cases r with
  | nil => exact ⟨[], by simp [renderNames]⟩
  | cons y ys => exact ⟨',' :: renderNames (y :: ys), by simp [renderNames]⟩

lemma ts_files : ∀ (fns : List (List Char)),
    (∀ f ∈ fns, goodFile f = true) → fns ≠ [] →
    ∀ rest : List Char, rest.head? = some ':' →
    ∃ sp : List (List Char × _Token),
      (∀ L, tokenizeSpans rest = some L →
        tokenizeSpans (renderNames fns ++ rest) = some (sp ++ L)) ∧
      sp.map Prod.snd = nameToks .file fns := by
  intro fns
  induction fns with
  | nil => intro _ hne _ _; exact absurd rfl hne
  | cons f fns ih =>
    intro hgood _ rest hrest
    obtain ⟨hfne, hfall, hfcs⟩ := goodFile_spec (hgood f (by simp))
    cases fns with
    | nil =>
      refine ⟨[(f, _Token.mk .file f)], ?_, by simp [nameToks]⟩
      intro L hL
      have hstep := @tokStep_file _ rest hfne hfall hfcs
        (by
          intro c hc
          rw [hrest] at hc
          injection hc with hc
          exact hc ▸ colon_not_file)
      have := ts_cons hstep
      rw [show renderNames [f] = f from rfl, this, hL, pyStrip_file hfall]
      rfl
    | cons g gs =>
      obtain ⟨X, hX⟩ := renderNames_cons g gs
      have hgne : g ≠ [] := (goodFile_spec (hgood g (by simp))).1
      have hghead : ∀ c, (renderNames (g :: gs) ++ rest).head? = some c →
          isFileChar c = true := by
        intro c hc
        rw [hX] at hc
        cases g with
        | nil => exact absurd rfl hgne
        | cons gc gt =>
          simp only [List.cons_append, List.head?_cons, Option.some_inj] at hc
          exact hc ▸ (goodFile_spec (hgood (gc :: gt) (by simp))).2.1 gc
            (by simp)
      obtain ⟨sp', hsp', hsnd'⟩ := ih (fun x hx => hgood x (by simp [hx]))
        (by simp) rest hrest
      refine ⟨(f, _Token.mk .file f) :: ([','], _Token.mk .comma [',']) :: sp',
        ?_, ?_⟩
      · intro L hL
        have heq : renderNames (f :: g :: gs) ++ rest =
            f ++ (',' :: (renderNames (g :: gs) ++ rest)) := by
          simp [renderNames]
        have hstep1 := @tokStep_file
          _ (',' :: (renderNames (g :: gs) ++ rest)) hfne hfall hfcs
          (by
            intro c hc
            simp only [List.head?_cons, Option.some_inj] at hc
            exact hc ▸ comma_not_file)
        have hstep2 := @tokStep_comma (renderNames (g :: gs) ++ rest)
          (by intro c hc; exact file_not_space (hghead c hc))
        rw [heq, ts_cons hstep1, ts_cons hstep2, hsp' L hL,
          pyStrip_file hfall]
        rw [show pyStrip [','] = [','] from by decide]
        rfl
      · simp only [List.map_cons, hsnd']
        rfl

lemma ts_codes : ∀ (cds : List (List Char)),
    (∀ c ∈ cds, codeShaped c = true) → cds ≠ [] →
    ∀ rest : List Char, (rest = [] ∨ rest.head? = some '\n') →
    ∃ sp : List (List Char × _Token),
      (∀ L, tokenizeSpans rest = some L →
        tokenizeSpans (renderNames cds ++ rest) = some (sp ++ L)) ∧
      sp.map Prod.snd = nameToks .code cds := by
  intro cds
  induction cds with
  | nil => intro _ hne _ _; exact absurd rfl hne
  | cons c cds ih =>
    intro hgood _ rest hrest
    have hc := hgood c (by simp)
    cases cds with
    | nil =>
      refine ⟨[(c, _Token.mk .code c)], ?_, by simp [nameToks]⟩
      intro L hL
      have hbound : codeBoundary rest = true := by
        rcases hrest with h | h
        · subst h; rfl
        · cases rest with
          | nil => rfl
          | cons y ys =>
            simp only [List.head?_cons, Option.some_inj] at h
            subst h
            simp [codeBoundary, newline_is_space]
      have hstep := @tokStep_code _ rest hc hbound
      rw [show renderNames [c] = c from rfl, ts_cons hstep, hL,
        pyStrip_code hc]
      rfl
    | cons d ds =>
      obtain ⟨X, hX⟩ := renderNames_cons d ds
      have hdne : d ≠ [] := codeShaped_ne_nil (hgood d (by simp))
      have hdhead : ∀ x, (renderNames (d :: ds) ++ rest).head? = some x →
          isUpperChar x = true := by
        intro x hx
        rw [hX] at hx
        cases d with
        | nil => exact absurd rfl hdne
        | cons dc dt =>
          simp only [List.cons_append, List.head?_cons, Option.some_inj] at hx
          exact codeShaped_head_upper (hgood (dc :: dt) (by simp)) x
            (by rw [List.head?_cons, hx])
      obtain ⟨sp', hsp', hsnd'⟩ := ih (fun x hx => hgood x (by simp [hx]))
        (by simp) rest hrest
      refine ⟨(c, _Token.mk .code c) :: ([','], _Token.mk .comma [',']) :: sp',
        ?_, ?_⟩
      · intro L hL
        have heq : renderNames (c :: d :: ds) ++ rest =
            c ++ (',' :: (renderNames (d :: ds) ++ rest)) := by
          simp [renderNames]
        have hstep1 := @tokStep_code
          _ (',' :: (renderNames (d :: ds) ++ rest)) hc
          (by simp [codeBoundary])
        have hstep2 := @tokStep_comma (renderNames (d :: ds) ++ rest)
          (by intro x hx; exact upper_not_space (hdhead x hx))
        rw [heq, ts_cons hstep1, ts_cons hstep2, hsp' L hL, pyStrip_code hc]
        rw [show pyStrip [','] = [','] from by decide]
        rfl
      · simp only [List.map_cons, hsnd']
        rfl

lemma goodGroup_spec {g : List (List Char) × List (List Char)}
    (h : goodGroup g = true) :
    g.1 ≠ [] ∧ g.2 ≠ [] ∧ (∀ f ∈ g.1, goodFile f = true) ∧
      (∀ c ∈ g.2, codeShaped c = true) := by
  simp only [goodGroup, Bool.and_eq_true, List.all_eq_true] at h
  exact ⟨by simpa [List.isEmpty_iff] using h.1.1.1,
    by simpa [List.isEmpty_iff] using h.1.1.2, h.1.2, h.2⟩

lemma ts_group {g : List (List Char) × List (List Char)}
    (hgood : goodGroup g = true) :
    ∀ rest : List Char, (rest = [] ∨ rest.head? = some '\n') →
    ∃ sp : List (List Char × _Token),
      (∀ L, tokenizeSpans rest = some L →
        tokenizeSpans (renderGroup g ++ rest) = some (sp ++ L)) ∧
      sp.map Prod.snd = groupToks g := by
  intro rest hrest
  obtain ⟨h1, h2, hf, hc⟩ := goodGroup_spec hgood
  obtain ⟨spC, hspC, hsndC⟩ := ts_codes g.2 hc h2 rest hrest
  -- the colon step
  have hcodehead : ∀ x, (renderNames g.2 ++ rest).head? = some x →
      isSpaceChar x = false := by
    intro x hx
    cases hg2 : g.2 with
    | nil => exact absurd hg2 h2
    | cons d ds =>
      obtain ⟨X, hX⟩ := renderNames_cons d ds
      rw [hg2, hX] at hx
      have hdne : d ≠ [] := codeShaped_ne_nil (hc d (by simp [hg2]))
      cases d with
      | nil => exact absurd rfl hdne
      | cons dc dt =>
        simp only [List.cons_append, List.head?_cons, Option.some_inj] at hx
        exact upper_not_space (codeShaped_head_upper
          (hc (dc :: dt) (by simp [hg2])) x (by rw [List.head?_cons, hx]))
  obtain ⟨spF, hspF, hsndF⟩ := ts_files g.1 hf h1
    (':' :: (renderNames g.2 ++ rest)) (by simp)
  refine ⟨spF ++ ([':'], _Token.mk .colon [':']) :: spC, ?_, ?_⟩
  · intro L hL
    have hstepc := @tokStep_colon (renderNames g.2 ++ rest) hcodehead
    have hmid : tokenizeSpans (':' :: (renderNames g.2 ++ rest)) =
        some (([':'], _Token.mk .colon [':']) :: (spC ++ L)) := by
      rw [ts_cons hstepc, hspC L hL]
      rw [show pyStrip [':'] = [':'] from by decide]
      rfl
    have := hspF _ hmid
    rw [show renderGroup g ++ rest =
        renderNames g.1 ++ (':' :: (renderNames g.2 ++ rest)) from by
      simp [renderGroup], this]
    simp
  · simp only [List.map_append, List.map_cons, hsndF, hsndC, groupToks]

lemma goodGroups_head_file {g : List (List Char) × List (List Char)}
    {r : List (List (List Char) × List (List Char))}
    (hgood : goodGroup g = true) :
    ∀ x, (renderGroups (g :: r)).head? = some x → isFileChar x = true := by
  intro x hx
  obtain ⟨h1, _, hf, _⟩ := goodGroup_spec hgood
  have hrg : ∃ Y, renderGroups (g :: r) = renderGroup g ++ Y := by
    cases r with
    | nil => exact ⟨[], by simp [renderGroups]⟩
    | cons a b => exact ⟨'\n' :: renderGroups (a :: b), by simp [renderGroups]⟩
  obtain ⟨Y, hY⟩ := hrg
  cases hg1 : g.1 with
  | nil => exact absurd hg1 h1
  | cons f fs =>
    obtain ⟨X, hX⟩ := renderNames_cons f fs
    have hfne : f ≠ [] := (goodFile_spec (hf f (by simp [hg1]))).1
    cases f with
    | nil => exact absurd rfl hfne
    | cons fc ft =>
      rw [hY] at hx
      rw [show renderGroup g = renderNames g.1 ++ ':' :: renderNames g.2
        from rfl] at hx
      rw [hg1, hX] at hx
      simp only [List.cons_append, List.append_assoc, List.head?_cons,
        Option.some_inj] at hx
      exact hx ▸ (goodFile_spec (hf (fc :: ft) (by simp [hg1]))).2.1 fc
        (by simp)

lemma ts_groups : ∀ (gs : List (List (List Char) × List (List Char))),
    goodGroups gs = true → gs ≠ [] →
    ∃ sp : List (List Char × _Token),
      tokenizeSpans (renderGroups gs) = some sp ∧
      sp.map Prod.snd = gsToks gs := by
  intro gs
  induction gs with
  | nil => intro _ hne; exact absurd rfl hne
  | cons g gs ih =>
    intro hgood _
    have hg : goodGroup g = true := by
      simp only [goodGroups, List.all_eq_true] at hgood
      exact hgood g (by simp)
    cases gs with
    | nil =>
      obtain ⟨sp, hsp, hsnd⟩ := ts_group hg [] (Or.inl rfl)
      refine ⟨sp, ?_, by simpa [gsToks] using hsnd⟩
      have := hsp [] ts_nil
      simpa [renderGroups] using this
    | cons g2 gs2 =>
      have hgs2 : goodGroups (g2 :: gs2) = true := by
        simp only [goodGroups, List.all_eq_true] at hgood ⊢
        exact fun x hx => hgood x (by simp [hx])
      obtain ⟨sp2, hsp2, hsnd2⟩ := ih hgs2 (by simp)
      have hg2good : goodGroup g2 = true := by
        simp only [goodGroups, List.all_eq_true] at hgood
        exact hgood g2 (by simp)
      have hstepws := @tokStep_ws_newline (renderGroups (g2 :: gs2))
        (goodGroups_head_file hg2good)
      obtain ⟨sp1, hsp1, hsnd1⟩ := ts_group hg
        ('\n' :: renderGroups (g2 :: gs2)) (by simp)
      refine ⟨sp1 ++ (['\n'], _Token.mk .ws []) :: sp2, ?_, ?_⟩
      · have hmid : tokenizeSpans ('\n' :: renderGroups (g2 :: gs2)) =
            some ((['\n'], _Token.mk .ws []) :: sp2) := by
          rw [ts_cons hstepws, hsp2]
          rw [show pyStrip ['\n'] = [] from by decide]
          rfl
        have := hsp1 _ hmid
        rw [show renderGroups (g :: g2 :: gs2) =
            renderGroup g ++ ('\n' :: renderGroups (g2 :: gs2)) from by
          simp [renderGroups], this]
      · simp only [List.map_append, List.map_cons, hsnd1, hsnd2]
        rfl

/-- Tokenization of a rendered well-formed mapping configuration. -/
lemma tokenize_render {gs : List (List (List Char) × List (List Char))}
    (h : goodGroups gs = true) (hne : gs ≠ []) :
    _tokenize_files_to_codes_mapping (renderGroups gs) =
      some (gsToks gs ++ [_Token.mk .eof []]) := by
  obtain ⟨sp, hsp, hsnd⟩ := ts_groups gs h hne
  unfold _tokenize_files_to_codes_mapping
  rw [hsp]
  simp [hsnd]

/-! Running the mapping state machine over a rendered token stream. -/

lemma pfRun_cons_ok {value : List Char} {st : PFState}
    {ret : List (List Char × List (List Char))} {t : _Token}
    {ts : List _Token} {st2 : PFState}
    {ret2 : List (List Char × List (List Char))}
    (h : pfStep value st ret t = .ok (st2, ret2)) :
    pfRun value st ret (t :: ts) = pfRun value st2 ret2 ts := by
  have h0 : pfRun value st ret (t :: ts) =
      match pfStep value st ret t with
      | .error e => Except.error e
      | .ok (st3, ret3) => pfRun value st3 ret3 ts := rfl
  rw [h0, h]

lemma pfStep_sep_tok {value : List Char} {st : PFState}
    {ret : List (List Char × List (List Char))} {s : List Char}
    {tp : TokenType} (h : tp = TokenType.comma ∨ tp = TokenType.ws) :
    pfStep value st ret (_Token.mk tp s) =
      .ok ({ st with seen_sep := true }, ret) := by
  unfold pfStep
  rw [if_pos h]

lemma pfStep_file_filenames {value : List Char} {F : List (List Char)}
    {ret : List (List Char × List (List Char))} {f : List Char} :
    pfStep value (PFState.mk true false F []) ret (_Token.mk .file f) =
      .ok (PFState.mk false false (F ++ [f]) [], ret) := rfl

lemma pfStep_colon_tok {value : List Char} {sp : Bool} {F : List (List Char)}
    {ret : List (List Char × List (List Char))} :
    pfStep value (PFState.mk sp false F []) ret (_Token.mk .colon [':']) =
      .ok (PFState.mk true true F [], ret) := by
  cases sp <;> rfl

lemma pfStep_code_codes {value : List Char} {F C : List (List Char)}
    {ret : List (List Char × List (List Char))} {c : List Char} :
    pfStep value (PFState.mk true true F C) ret (_Token.mk .code c) =
      .ok (PFState.mk false true F (C ++ [c]), ret) := rfl

lemma pfStep_file_reset {value : List Char} {F C : List (List Char)}
    {ret : List (List Char × List (List Char))} {f : List Char}
    (hC : C ≠ []) :
    pfStep value (PFState.mk true true F C) ret (_Token.mk .file f) =
      .ok (PFState.mk false false [f] [],
           ret ++ F.map (fun x => (x, C))) := by
  show Except.ok (PFState.mk false false [f] [],
      if C ≠ [] then ret ++ F.map (fun x => (x, C)) else ret) = _
  rw [if_pos hC]

lemma pfStep_eof_reset {value : List Char} {sp : Bool} {F C : List (List Char)}
    {ret : List (List Char × List (List Char))} (hC : C ≠ []) :
    pfStep value (PFState.mk sp true F C) ret (_Token.mk .eof []) =
      .ok (PFState.mk true false [] [],
           ret ++ F.map (fun x => (x, C))) := by
  cases sp
  · show Except.ok (PFState.mk true false [] [],
        if C ≠ [] then ret ++ F.map (fun x => (x, C)) else ret) = _
    rw [if_pos hC]
  · show Except.ok (PFState.mk true false [] [],
        if C ≠ [] then ret ++ F.map (fun x => (x, C)) else ret) = _
    rw [if_pos hC]

lemma pfStep_sep_mk {value : List Char} {sp sc : Bool} {F C : List (List Char)}
    {ret : List (List Char × List (List Char))} {s : List Char}
    {tp : TokenType} (h : tp = TokenType.comma ∨ tp = TokenType.ws) :
    pfStep value (PFState.mk sp sc F C) ret (_Token.mk tp s) =
      .ok (PFState.mk true sc F C, ret) :=
  pfStep_sep_tok h

lemma nameToks_one (tp : TokenType) (x : List Char) :
    nameToks tp [x] = [_Token.mk tp x] := rfl

lemma nameToks_two (tp : TokenType) (x y : List Char)
    (r : List (List Char)) :
    nameToks tp (x :: y :: r) =
      _Token.mk tp x :: _Token.mk .comma [','] :: nameToks tp (y :: r) := rfl

lemma nameToks_head_tail (tp : TokenType) (x : List Char)
    (r : List (List Char)) :
    nameToks tp (x :: r) =
      _Token.mk tp x :: (nameToks tp (x :: r)).tail := by
  cases r <;> rfl

lemma gsToks_one (g : List (List Char) × List (List Char)) :
    gsToks [g] = groupToks g := rfl

lemma gsToks_two (g g2 : List (List Char) × List (List Char))
    (r : List (List (List Char) × List (List Char))) :
    gsToks (g :: g2 :: r) =
      groupToks g ++ _Token.mk .ws [] :: gsToks (g2 :: r) := rfl

lemma pfRun_files : ∀ (fns F : List (List Char)) (value : List Char)
    (ret : List (List Char × List (List Char))) (rest : List _Token),
    fns ≠ [] →
    pfRun value (PFState.mk true false F []) ret
        (nameToks .file fns ++ rest) =
      pfRun value (PFState.mk false false (F ++ fns) []) ret rest := by
  intro fns
  induction fns with
  | nil => intro _ _ _ _ h; exact absurd rfl h
  | cons f fs ih =>
    intro F value ret rest _
    cases fs with
    | nil =>
      rw [nameToks_one]
      simp only [List.cons_append, List.nil_append]
      rw [pfRun_cons_ok pfStep_file_filenames]
    | cons g gs =>
      rw [nameToks_two]
      simp only [List.cons_append]
      rw [pfRun_cons_ok pfStep_file_filenames,
        pfRun_cons_ok (pfStep_sep_mk (Or.inl rfl)),
        ih (F ++ [f]) value ret rest (by simp)]
      simp

lemma pfRun_codes : ∀ (cds : List (List Char)) (F C : List (List Char))
    (value : List Char) (ret : List (List Char × List (List Char)))
    (rest : List _Token),
    cds ≠ [] →
    pfRun value (PFState.mk true true F C) ret
        (nameToks .code cds ++ rest) =
      pfRun value (PFState.mk false true F (C ++ cds)) ret rest := by
  intro cds
  induction cds with
  | nil => intro _ _ _ _ _ h; exact absurd rfl h
  | cons c ds ih =>
    intro F C value ret rest _
    cases ds with
    | nil =>
      rw [nameToks_one]
      simp only [List.cons_append, List.nil_append]
      rw [pfRun_cons_ok pfStep_code_codes]
    | cons d ds2 =>
      rw [nameToks_two]
      simp only [List.cons_append]
      rw [pfRun_cons_ok pfStep_code_codes,
        pfRun_cons_ok (pfStep_sep_mk (Or.inl rfl)),
        ih F (C ++ [c]) value ret rest (by simp)]
      simp

lemma expand_cons (g : List (List Char) × List (List Char))
    (r : List (List (List Char) × List (List Char))) :
    expand (g :: r) = g.1.map (fun f => (f, g.2)) ++ expand r := by
  simp [expand]

lemma pfRun_group_core : ∀ (g : List (List Char) × List (List Char))
    (value : List Char) (ret : List (List Char × List (List Char)))
    (tail : List _Token),
    goodGroup g = true →
    pfRun value (PFState.mk true false [] []) ret (groupToks g ++ tail) =
      pfRun value (PFState.mk false true g.1 g.2) ret tail := by
  intro g value ret tail hg
  obtain ⟨h1, h2, _, _⟩ := goodGroup_spec hg
  unfold groupToks
  rw [List.append_assoc]
  rw [pfRun_files g.1 [] value ret _ h1]
  simp only [List.nil_append, List.cons_append]
  rw [pfRun_cons_ok pfStep_colon_tok]
  rw [pfRun_codes g.2 g.1 [] value ret tail h2]
  rfl

lemma pfRun_after_reset : ∀ (f : List Char) (fs cds : List (List Char))
    (value : List Char) (ret : List (List Char × List (List Char)))
    (tail : List _Token),
    cds ≠ [] →
    pfRun value (PFState.mk false false [f] []) ret
        ((nameToks .file (f :: fs)).tail ++
          (_Token.mk .colon [':'] :: (nameToks .code cds ++ tail))) =
      pfRun value (PFState.mk false true (f :: fs) cds) ret tail := by
  intro f fs cds value ret tail h2
  have hfiles : pfRun value (PFState.mk false false [f] []) ret
      ((nameToks .file (f :: fs)).tail ++
        (_Token.mk .colon [':'] :: (nameToks .code cds ++ tail))) =
      pfRun value (PFState.mk false false (f :: fs) []) ret
        (_Token.mk .colon [':'] :: (nameToks .code cds ++ tail)) := by
    cases fs with
    | nil => rfl
    | cons q qs =>
      rw [nameToks_two]
      simp only [List.tail_cons, List.cons_append]
      rw [pfRun_cons_ok (pfStep_sep_mk (Or.inl rfl)),
        pfRun_files (q :: qs) [f] value _ _ (by simp)]
      rfl
  rw [hfiles, pfRun_cons_ok pfStep_colon_tok,
    pfRun_codes cds (f :: fs) [] value _ _ h2]
  rfl

lemma groupToks_head_tail {g : List (List Char) × List (List Char)}
    {f : List Char} {fs : List (List Char)} (hg1 : g.1 = f :: fs) :
    groupToks g = _Token.mk .file f ::
      ((nameToks .file (f :: fs)).tail ++
        (_Token.mk .colon [':'] :: nameToks .code g.2)) := by
  unfold groupToks
  rw [hg1, nameToks_head_tail]
  simp

lemma pfRun_groups : ∀ (gs : List (List (List Char) × List (List Char)))
    (F C : List (List Char)) (value : List Char)
    (ret : List (List Char × List (List Char))),
    goodGroups gs = true → C ≠ [] →
    pfRun value (PFState.mk false true F C) ret
        (_Token.mk .ws [] :: gsToks gs ++ [_Token.mk .eof []]) =
      .ok (ret ++ F.map (fun x => (x, C)) ++ expand gs) := by
  intro gs
  induction gs with
  | nil =>
    intro F C value ret _ hC
    have hts : (_Token.mk .ws [] :: gsToks [] ++ [_Token.mk .eof []]) =
        [_Token.mk TokenType.ws [], _Token.mk .eof []] := rfl
    rw [hts, pfRun_cons_ok (pfStep_sep_mk (Or.inr rfl)),
      pfRun_cons_ok (pfStep_eof_reset hC)]
    show Except.ok (ret ++ F.map (fun x => (x, C))) = _
    simp [expand]
  | cons g gs ih =>
    intro F C value ret hgood hC
    have hg : goodGroup g = true := by
      simp only [goodGroups, List.all_eq_true] at hgood
      exact hgood g (by simp)
    have hgs : goodGroups gs = true := by
      simp only [goodGroups, List.all_eq_true] at hgood ⊢
      exact fun x hx => hgood x (by simp [hx])
    obtain ⟨h1, h2, hf, hcs⟩ := goodGroup_spec hg
    cases hg1 : g.1 with
    | nil => exact absurd hg1 h1
    | cons f fs =>
      cases gs with
      | nil =>
        rw [gsToks_one, groupToks_head_tail hg1]
        simp only [List.cons_append, List.append_assoc]
        rw [pfRun_cons_ok (pfStep_sep_mk (Or.inr rfl)),
          pfRun_cons_ok (pfStep_file_reset hC)]
        rw [pfRun_after_reset f fs g.2 value _ _ h2]
        rw [pfRun_cons_ok (pfStep_eof_reset h2)]
        show Except.ok (ret ++ F.map (fun x => (x, C)) ++
          (f :: fs).map (fun x => (x, g.2))) = _
        simp [expand_cons, hg1, expand, List.append_assoc]
      | cons g2 gs2 =>
        rw [gsToks_two, groupToks_head_tail hg1]
        simp only [List.cons_append, List.append_assoc]
        rw [pfRun_cons_ok (pfStep_sep_mk (Or.inr rfl)),
          pfRun_cons_ok (pfStep_file_reset hC)]
        rw [show nameToks .code g.2 ++
            _Token.mk .ws [] :: (gsToks (g2 :: gs2) ++
              [_Token.mk .eof []]) =
          nameToks .code g.2 ++
            (_Token.mk .ws [] :: gsToks (g2 :: gs2) ++
              [_Token.mk .eof []]) from by simp]
        rw [pfRun_after_reset f fs g.2 value _ _ h2]
        rw [ih (f :: fs) g.2 value _ hgs h2]
        simp [expand_cons, hg1, List.append_assoc]

lemma pfRun_top : ∀ (gs : List (List (List Char) × List (List Char)))
    (value : List Char),
    goodGroups gs = true → gs ≠ [] →
    pfRun value (PFState.mk true false [] []) []
        (gsToks gs ++ [_Token.mk .eof []]) = .ok (expand gs) := by
  intro gs value hgood hne
  cases gs with
  | nil => exact absurd rfl hne
  | cons g gs =>
    have hg : goodGroup g = true := by
      simp only [goodGroups, List.all_eq_true] at hgood
      exact hgood g (by simp)
    have hgs : goodGroups gs = true := by
      simp only [goodGroups, List.all_eq_true] at hgood ⊢
      exact fun x hx => hgood x (by simp [hx])
    obtain ⟨h1, h2, _, _⟩ := goodGroup_spec hg
    cases gs with
    | nil =>
      rw [gsToks_one]
      rw [pfRun_group_core g value [] _ hg]
      rw [pfRun_cons_ok (pfStep_eof_reset h2)]
      show Except.ok ([] ++ g.1.map (fun x => (x, g.2))) = _
      rw [expand_cons]
      simp [expand]
    | cons g2 gs2 =>
      rw [gsToks_two, List.append_assoc]
      rw [pfRun_group_core g value [] _ hg]
      rw [show (_Token.mk .ws [] :: gsToks (g2 :: gs2)) ++
          [_Token.mk .eof []] =
        _Token.mk .ws [] :: gsToks (g2 :: gs2) ++ [_Token.mk .eof []]
        from rfl]
      rw [pfRun_groups (g2 :: gs2) g.1 g.2 value [] hgs h2]
      simp [expand_cons, List.append_assoc]

/-! End-to-end parsing of a rendered mapping configuration. -/

lemma renderGroups_shape {g : List (List Char) × List (List Char)}
    (r : List (List (List Char) × List (List Char)))
    (hg : goodGroup g = true) :
    ∃ c t, renderGroups (g :: r) = c :: t ∧ isFileChar c = true := by
  obtain ⟨h1, _, hf, _⟩ := goodGroup_spec hg
  have hY : ∃ Y, renderGroups (g :: r) = renderGroup g ++ Y := by
    cases r with
    | nil => exact ⟨[], by simp [renderGroups]⟩
    | cons a b => exact ⟨'\n' :: renderGroups (a :: b), by simp [renderGroups]⟩
  obtain ⟨Y, hY⟩ := hY
  cases hg1 : g.1 with
  | nil => exact absurd hg1 h1
  | cons f fs =>
    obtain ⟨X, hX⟩ := renderNames_cons f fs
    have hfne : f ≠ [] := (goodFile_spec (hf f (by simp [hg1]))).1
    cases f with
    | nil => exact absurd rfl hfne
    | cons fc ft =>
      refine ⟨fc, ?_, ?_, ?_⟩
      · exact ft ++ X ++ ':' :: renderNames g.2 ++ Y
      · rw [hY, show renderGroup g =
          renderNames g.1 ++ ':' :: renderNames g.2 from rfl, hg1, hX]
        simp
      · exact (goodFile_spec (hf (fc :: ft) (by simp [hg1]))).2.1 fc (by simp)

lemma parse_files_render : ∀ gs, goodGroups gs = true →
    parse_files_to_codes_mapping (renderGroups gs) = .ok (expand gs) := by
  intro gs h
  cases gs with
  | nil => rfl
  | cons g gs2 =>
    have hg : goodGroup g = true := by
      simp only [goodGroups, List.all_eq_true] at h
      exact h g (by simp)
    obtain ⟨c, t, hct, hcf⟩ := renderGroups_shape gs2 hg
    have hstrip : ¬(pyStrip (renderGroups (g :: gs2)) = []) := by
      rw [hct]
      exact pyStrip_ne_nil (by simp) (file_not_space hcf)
    unfold parse_files_to_codes_mapping
    rw [if_neg hstrip, tokenize_render h (by simp)]
    exact pfRun_top (g :: gs2) _ h (by simp)

/-- C1: for every well-formed mapping string (rendered from groups of
valid filename patterns and codes), `parse_files_to_codes_mapping`
returns one output pair per declared filename, pairing each filename with
exactly the ordered list of codes declared in its group, with pairs in
declaration order; in particular `"a.py,b.py: E501,E502"` yields
`[("a.py", ["E501","E502"]), ("b.py", ["E501","E502"])]`. -/
theorem C1_mapping_per_filename :
    (∀ gs : List (List (List Char) × List (List Char)),
      goodGroups gs = true →
      parse_files_to_codes_mapping (renderGroups gs) = .ok (expand gs)) ∧
    parse_files_to_codes_mapping (str "a.py,b.py: E501,E502") =
      .ok [(str "a.py", [str "E501", str "E502"]),
           (str "b.py", [str "E501", str "E502"])] :=
  ⟨fun gs h => parse_files_render gs h, by decide⟩

/-- Witness for C1 at the groups `[(["a.py","b.py"], ["E501","E502"])]`. -/
theorem C1_mapping_per_filename_witness :
    goodGroups [([str "a.py", str "b.py"], [str "E501", str "E502"])] =
      true ∧
    parse_files_to_codes_mapping
        (renderGroups [([str "a.py", str "b.py"],
          [str "E501", str "E502"])]) =
      .ok (expand [([str "a.py", str "b.py"], [str "E501", str "E502"])]) :=
  ⟨by decide, C1_mapping_per_filename.1 _ (by decide)⟩

/-- C3: a FILE token encountered while collecting codes, with a nonempty
accumulated codes list and seen-separator true, flushes the current group
(emitting its pairs) and begins a new group with that token as its first
filename; so `"a.py: E501 b.py: E502"` yields
`[("a.py", ["E501"]), ("b.py", ["E502"])]`. -/
theorem C3_file_token_starts_new_group :
    (∀ (st : PFState) (value f : List Char)
        (ret : List (List Char × List (List Char))),
      st.seen_colon = true → st.seen_sep = true → st.codes ≠ [] →
      pfStep value st ret (_Token.mk .file f) =
        .ok (PFState.mk false false [f] [],
             ret ++ st.filenames.map (fun x => (x, st.codes)))) ∧
    parse_files_to_codes_mapping (str "a.py: E501 b.py: E502") =
      .ok [(str "a.py", [str "E501"]), (str "b.py", [str "E502"])] := by
  constructor
  · intro st value f ret hcolon hsep hcodes
    obtain ⟨sp, sc, F, C⟩ := st
    simp only at hcolon hsep hcodes
    subst hcolon
    subst hsep
    exact pfStep_file_reset hcodes
  · decide

/-- Witness for C3 at the state `⟨true, true, ["a.py"], ["E501"]⟩`. -/
theorem C3_file_token_starts_new_group_witness :
    pfStep (str "x") (PFState.mk true true [str "a.py"] [str "E501"]) []
        (_Token.mk .file (str "b.py")) =
      .ok (PFState.mk false false [str "b.py"] [],
           [(str "a.py", [str "E501"])]) := by
  have h := C3_file_token_starts_new_group.1
    (PFState.mk true true [str "a.py"] [str "E501"]) (str "x")
    (str "b.py") [] rfl rfl (by decide)
  simpa using h

/-- Counterexample to C4: `"a.py: b.py: E501"` is not rejected — the code
accepts it with the empty pending group silently dropped, returning
`[("b.py", ["E501"])]` instead of raising a configuration-format error. -/
theorem C4_counterexample :
    parse_files_to_codes_mapping (str "a.py: b.py: E501") =
      .ok [(str "b.py", [str "E501"])] := by decide

/-- C4 (amended): a FILE token encountered in the collecting-codes state
with seen-separator true and an empty accumulated codes list is accepted,
not rejected: `_reset` emits nothing (codes is empty), the pending
filenames are discarded, and the token starts a new group's filename
list; so `"a.py: b.py: E501"` parses to `[("b.py", ["E501"])]`. -/
theorem C4_file_after_colon_accepted :
    (∀ (st : PFState) (value f : List Char)
        (ret : List (List Char × List (List Char))),
      st.seen_colon = true → st.seen_sep = true → st.codes = [] →
      pfStep value st ret (_Token.mk .file f) =
        .ok (PFState.mk false false [f] [], ret)) ∧
    parse_files_to_codes_mapping (str "a.py: b.py: E501") =
      .ok [(str "b.py", [str "E501"])] := by
  constructor
  · intro st value f ret hcolon hsep hcodes
    obtain ⟨sp, sc, F, C⟩ := st
    simp only at hcolon hsep hcodes
    subst hcolon
    subst hsep
    subst hcodes
    show Except.ok (PFState.mk false false [f] [],
        if ([] : List (List Char)) ≠ [] then
          ret ++ F.map (fun x => (x, ([] : List (List Char)))) else ret) = _
    rw [if_neg (by simp)]
  · decide

/-- Witness for the amended C4 at the state
`⟨true, true, ["a.py"], []⟩`. -/
theorem C4_file_after_colon_accepted_witness :
    pfStep (str "x") (PFState.mk true true [str "a.py"] []) []
        (_Token.mk .file (str "b.py")) =
      .ok (PFState.mk false false [str "b.py"] [], []) :=
  C4_file_after_colon_accepted.1
    (PFState.mk true true [str "a.py"] []) (str "x") (str "b.py") []
    rfl rfl rfl

/-! Totality and coverage of the tokenizer. -/

lemma ts_cover : ∀ (n : Nat) (s : List Char), s.length ≤ n →
    ∃ l, tokenizeSpans s = some l ∧ (l.map Prod.fst).flatten = s := by
  intro n
  induction n with
  | zero =>
    intro s h
    have hs : s = [] := by
      cases s with
      | nil => rfl
      | cons _ _ => simp at h
    subst hs
    exact ⟨[], ts_nil, rfl⟩
  | succ n ih =>
    intro s hlen
    cases s with
    | nil => exact ⟨[], ts_nil, rfl⟩
    | cons c cs =>
      cases htok : tokStep (c :: cs) with
      | none => exact absurd htok (tokStep_total c cs)
      | some v =>
        obtain ⟨tp, raw, rest⟩ := v
        obtain ⟨happ, _⟩ := tokStep_sound htok
        have hlt := tokStep_rest_length htok
        simp only [List.length_cons] at hlen hlt
        obtain ⟨l, hl, hcov⟩ := ih rest (by omega)
        refine ⟨(raw, _Token.mk tp (pyStrip raw)) :: l, ?_, ?_⟩
        · rw [ts_cons htok, hl]
          rfl
        · simp only [List.map_cons, List.flatten_cons, hcov]
          exact happ

/-- C5: on every input the tokenizer terminates without ever reaching its
`AssertionError("unreachable")` branch (the five patterns are exhaustive),
and returns a token sequence whose matched spans cover the entire input
with no gaps, ending with the single EOF token. -/
theorem C5_tokenizer_exhaustive :
    ∀ s : List Char, ∃ l,
      tokenizeSpans s = some l ∧
      (l.map Prod.fst).flatten = s ∧
      _tokenize_files_to_codes_mapping s =
        some (l.map Prod.snd ++ [_Token.mk .eof []]) := by
  intro s
  obtain ⟨l, hl, hcov⟩ := ts_cover s.length s le_rfl
  refine ⟨l, hl, hcov, ?_⟩
  unfold _tokenize_files_to_codes_mapping
  rw [hl]
  rfl

/-! CODE versus FILE classification at a token boundary. -/

lemma takeWhile_append_all {p : Char → Bool} : ∀ (a b : List Char),
    (∀ c ∈ a, p c = true) →
    (a ++ b).takeWhile p = a ++ b.takeWhile p ∧
      (a ++ b).dropWhile p = b.dropWhile p := by
  intro a
  induction a with
  | nil => intro b _; simp
  | cons x a ih =>
    intro b ha
    have hx : p x = true := ha x (by simp)
    have h2 := ih b (fun c hc => ha c (by simp [hc]))
    simp [List.takeWhile_cons, List.dropWhile_cons, hx, h2.1, h2.2]

/-- C6: the tokenizer tries CODE before FILE, so a maximal run matching
`[A-Z]+[0-9]*` is emitted as a CODE token exactly when it is immediately
followed by end-of-input, whitespace, or a comma (`codeBoundary`), and
otherwise (followed by a colon or further non-separator characters) is
absorbed into a FILE token extending the run. -/
theorem C6_code_requires_boundary :
    ∀ (cs rest : List Char), codeShaped cs = true →
    (∀ c, rest.head? = some c →
      isUpperChar c = false ∧ isDigitChar c = false) →
    ((codeBoundary rest = true →
        tokStep (cs ++ rest) = some (.code, cs, rest)) ∧
     (codeBoundary rest = false →
        tokStep (cs ++ rest) =
          some (.file, cs ++ rest.takeWhile isFileChar,
                rest.dropWhile isFileChar))) := by
  intro cs rest hcs hmax
  constructor
  · intro hb
    exact tokStep_code hcs hb
  · intro hb
    have hcsfile : ∀ c ∈ cs, isFileChar c = true := by
      intro c hc
      simp only [codeShaped, Bool.and_eq_true, List.all_eq_true] at hcs
      have hsplit : cs.takeWhile isUpperChar ++ cs.dropWhile isUpperChar =
          cs := List.takeWhile_append_dropWhile _ _
      rw [← hsplit] at hc
      rcases List.mem_append.mp hc with hc | hc
      · exact upper_isFile (List.mem_takeWhile_imp hc)
      · exact digit_isFile (hcs.2 c hc)
    have hcsne : cs ≠ [] := codeShaped_ne_nil hcs
    -- the CODE pattern cannot match: the boundary fails
    have hcode : matchCode (cs ++ rest) = none := by
      have hsp := @upper_digit_split cs rest hmax
      have hdrop : (cs.dropWhile isUpperChar).dropWhile isDigitChar = [] := by
        simp only [codeShaped, Bool.and_eq_true, List.all_eq_true] at hcs
        exact List.dropWhile_eq_nil_iff.mpr hcs.2
      unfold matchCode
      rw [hsp.1, hsp.2.1, hsp.2.2.2, hdrop]
      rw [if_neg]
      intro hcond
      rw [show ([] : List Char) ++ rest = rest from rfl] at hcond
      rw [hb] at hcond
      exact Bool.false_ne_true hcond.2
    have hfile : matchFile (cs ++ rest) =
        some (cs ++ rest.takeWhile isFileChar,
              rest.dropWhile isFileChar) := by
      have hsp := takeWhile_append_all (p := isFileChar) cs rest hcsfile
      unfold matchFile
      rw [hsp.1, hsp.2, if_pos (by simp [hcsne])]
    simp [tokStep, hcode, hfile]

/-- Witness for C6: `"E501"` alone is a CODE token, while `"E501"`
followed by `":x"` is absorbed into the FILE token `"E501:x"`'s head part
(here the run stops at the colon, so the FILE token is exactly `"E501"`,
and the following characters are left for the next tokens). -/
theorem C6_code_requires_boundary_witness :
    tokStep (str "E501" ++ []) = some (.code, str "E501", []) ∧
    tokStep (str "E501" ++ str ":x") =
      some (.file, str "E501" ++ (str ":x").takeWhile isFileChar,
            (str ":x").dropWhile isFileChar) := by
  constructor
  · exact (C6_code_requires_boundary (str "E501") [] (by decide)
      (by intro c hc; cases hc)).1 rfl
  · exact (C6_code_requires_boundary (str "E501") (str ":x") (by decide)
      (by decide)).2 (by decide)

/-! The configuration-format error message. -/

lemma pfStep_error {value : List Char} {st : PFState}
    {ret : List (List Char × List (List Char))} {t : _Token} {e : PyError}
    (h : pfStep value st ret t = .error e) :
    e = .executionError (unexpectedTokenMessage value) := by
  unfold pfStep at h
  split at h
  · exact absurd h (by simp)
  · split at h
    · split at h
      · exact absurd h (by simp)
      · split at h
        · exact absurd h (by simp)
        · injection h with h
          exact h.symm
    · split at h
      · exact absurd h (by simp)
      · split at h
        · exact absurd h (by simp)
        · split at h
          · exact absurd h (by simp)
          · injection h with h
            exact h.symm

lemma pfRun_error_msg : ∀ (toks : List _Token) (value : List Char)
    (st : PFState) (ret : List (List Char × List (List Char)))
    (m : List Char),
    pfRun value st ret toks = .error (.executionError m) →
    m = unexpectedTokenMessage value := by
  intro toks
  induction toks with
  | nil =>
    intro value st ret m h
    exact absurd h (by simp [pfRun])
  | cons t ts ih =>
    intro value st ret m h
    have h0 : pfRun value st ret (t :: ts) =
        match pfStep value st ret t with
        | .error e => Except.error e
        | .ok (st3, ret3) => pfRun value st3 ret3 ts := rfl
    rw [h0] at h
    cases hstep : pfStep value st ret t with
    | error e =>
      rw [hstep] at h
      simp only [Except.error.injEq] at h
      have h3 := pfStep_error hstep
      rw [h] at h3
      simp only [PyError.executionError.injEq] at h3
      exact h3
    | ok p =>
      obtain ⟨st2, ret2⟩ := p
      rw [hstep] at h
      exact ih value st2 ret2 m h

lemma parse_error_msg : ∀ (value m : List Char),
    parse_files_to_codes_mapping value = .error (.executionError m) →
    m = unexpectedTokenMessage value := by
  intro value m h
  unfold parse_files_to_codes_mapping at h
  split at h
  · exact absurd h (by simp)
  · cases htok : _tokenize_files_to_codes_mapping value with
    | none =>
      rw [htok] at h
      simp only [Except.error.injEq] at h
      cases h
    | some toks =>
      rw [htok] at h
      exact pfRun_error_msg toks value _ _ m h

set_option maxRecDepth 40000 in
/-- Counterexample to C7's universal part: for the input
`"a.py:: E501\n"` the parser raises the configuration-format error, but
its message does not contain the full original input text indented (the
message indents `value.strip()`, so the trailing newline of the original
is lost); neither the indented original nor even the raw original occurs
in the message. -/
theorem C7_counterexample :
    parse_files_to_codes_mapping (str "a.py:: E501\n") =
      .error (.executionError
        (unexpectedTokenMessage (str "a.py:: E501\n"))) ∧
    ¬ (textwrapIndent (str "a.py:: E501\n") (str "    ")) <:+:
        unexpectedTokenMessage (str "a.py:: E501\n") ∧
    ¬ (str "a.py:: E501\n") <:+:
        unexpectedTokenMessage (str "a.py:: E501\n") := by
  refine ⟨by decide, by decide, by decide⟩

set_option maxRecDepth 40000 in
/-- C7 (amended): `"a.py:: E501"` raises the configuration-format error
(an `ExecutionError`, a user-input error rather than an internal
assertion), and the message of every configuration-format error raised by
`parse_files_to_codes_mapping` includes the stripped original input text,
indented by four spaces. -/
theorem C7_error_message_indented :
    (∀ value m : List Char,
      parse_files_to_codes_mapping value = .error (.executionError m) →
      (textwrapIndent (pyStrip value) (str "    ")) <:+: m) ∧
    parse_files_to_codes_mapping (str "a.py:: E501") =
      .error (.executionError (unexpectedTokenMessage (str "a.py:: E501"))) := by
  constructor
  · intro value m h
    rw [parse_error_msg value m h]
    unfold unexpectedTokenMessage
    exact ⟨("Expected `per-file-ignores` to be a mapping from file exclude " ++
      "patterns to ignore codes.\n\n" ++
      "Configured `per-file-ignores` setting:\n\n").data, [], by simp [str]⟩
  · decide

/-- Witness for C7's universal part at the erroring input
`"a.py:: E501"`. -/
theorem C7_error_message_indented_witness :
    (textwrapIndent (pyStrip (str "a.py:: E501")) (str "    ")) <:+:
      unexpectedTokenMessage (str "a.py:: E501") :=
  C7_error_message_indented.1 (str "a.py:: E501") _
    C7_error_message_indented.2

/-! The hunk-body countdown and the path-assertion of the diff parser. -/

/-- C8: while inside a hunk body (countdown set and positive), each line
that is empty or does not start with `-` decrements the countdown by one,
lines starting with `-` leave it unchanged, and nothing else in the state
changes — in particular a `+++` or `@@` line inside the body is not
processed as a path line or hunk header. -/
theorem C8_hunk_body_countdown :
    ∀ (st : DiffState) (line : List Char) (n : Nat),
      st.number_of_rows = some (n + 1) →
      parse_unified_diff_step st line =
        .ok (DiffState.mk
          (some (if line = [] ∨ line.head? ≠ some '-' then n else n + 1))
          st.current_path st.parsed_paths) := by
  intro st line n h
  obtain ⟨rows, cp, pp⟩ := st
  simp only at h
  subst h
  unfold parse_unified_diff_step
  rw [if_pos (show truthyRows
    (DiffState.mk (some (n + 1)) cp pp).number_of_rows = true by
      simp [truthyRows])]
  by_cases hc : line = [] ∨ line.head? ≠ some '-'
  · rw [if_pos hc, if_pos hc]
    simp
  · rw [if_neg hc, if_neg hc]

/-- Witness for C8: inside a hunk body with countdown 2, the context line
`" ctx"` (which matches a hunk-header-free line, and even a line such as
`"+++ b/x"` would behave the same) decrements the countdown to 1. -/
theorem C8_hunk_body_countdown_witness :
    parse_unified_diff_step (DiffState.mk (some 2) none []) (str " ctx") =
      .ok (DiffState.mk (some 1) none []) := by
  have h := C8_hunk_body_countdown (DiffState.mk (some 2) none [])
    (str " ctx") 1 rfl
  rw [h]
  simp only [Except.ok.injEq, DiffState.mk.injEq]
  decide

lemma hunkMatch_not_path {line : List Char} {v : Nat × Option Nat}
    (h : hunkMatch line = some v) : ¬(line.take 3 = ['+', '+', '+']) := by
  unfold hunkMatch at h
  split at h
  · rename_i a b c d rest
    split at h
    · rename_i hcond
      intro htake
      rw [show List.take 3 (a :: b :: c :: d :: rest) = [a, b, c] from
        rfl] at htake
      simp only [List.cons.injEq, and_true] at htake
      obtain ⟨h1, _, _⟩ := htake
      subst h1
      exact absurd hcond.1 (by decide)
    · cases h
  · cases h

/-- C9: a line matching the hunk-header pattern encountered while no
`+++` line has set a current path fails with the `AssertionError`
(an internal invariant violation, not the user-facing configuration
error); in particular a diff consisting of only `"@@ -1 +1 @@"` makes
`parse_unified_diff` fail that way. -/
theorem C9_hunk_header_without_path :
    (∀ (st : DiffState) (line : List Char) (r : Nat) (g : Option Nat),
      truthyRows st.number_of_rows = false →
      st.current_path = none →
      hunkMatch line = some (r, g) →
      parse_unified_diff_step st line = .error .assertionError) ∧
    parse_unified_diff (str "@@ -1 +1 @@") = .error .assertionError := by
  constructor
  · intro st line r g hrows hcp hmatch
    have htake := hunkMatch_not_path hmatch
    unfold parse_unified_diff_step
    rw [if_neg (by simp [hrows])]
    rw [if_neg htake]
    simp only [hmatch, hcp]
  · decide

/-- Witness for C9 at the initial state and the header `"@@ -1 +1 @@"`. -/
theorem C9_hunk_header_without_path_witness :
    parse_unified_diff_step (DiffState.mk none none [])
        (str "@@ -1 +1 @@") = .error .assertionError :=
  C9_hunk_header_without_path.1 (DiffState.mk none none [])
    (str "@@ -1 +1 @@") 1 none rfl rfl (by decide)

/-- C10: a hunk header with an explicit new-count of 0 following a `+++`
path line inserts the path into the result mapped to the empty set (the
key is present although no lines are added), and sets the countdown to 0,
so the immediately following lines are treated as candidate headers (in
the second diff the next `@@` line is processed and contributes line 9)
rather than as skipped hunk-body lines. -/
theorem C10_zero_count_hunk :
    parse_unified_diff (str "+++ b/f\n@@ -5,2 +5,0 @@") =
      .ok [(str "f", (∅ : Finset Nat))] ∧
    parse_unified_diff (str "+++ b/f\n@@ -5,2 +5,0 @@\n@@ -3 +9 @@") =
      .ok [(str "f", ({9} : Finset Nat))] := by
  constructor
  · decide
  · decide

/-! Splitting a rendered diff back into its lines. -/

lemma splitlinesAux_line : ∀ (l cur rest : List Char),
    noBreaks l = true →
    splitlinesAux false cur (l ++ '\n' :: rest) =
      (cur.reverse ++ l) :: splitlinesAux false [] rest := by
  intro l
  induction l with
  | nil =>
    intro cur rest _
    cases rest with
    | nil => rfl
    | cons r1 r2 => rfl
  | cons c l ih =>
    intro cur rest hnb
    simp only [noBreaks, List.all_cons, Bool.and_eq_true] at hnb
    have hc : isLineBreakChar c = false := by simpa using hnb.1
    have hl : noBreaks l = true := hnb.2
    have hc13 : ¬(c.toNat = 13) := by
      simp only [isLineBreakChar, Bool.or_eq_false_iff,
        decide_eq_false_iff_not] at hc
      exact hc.1.1.1.1.1.1.1.1.2
    cases hl2 : l ++ '\n' :: rest with
    | nil => simp at hl2
    | cons d t =>
      have hstep : splitlinesAux false cur (c :: d :: t) =
          if decide (c.toNat = 13) && decide (d.toNat = 10) then
            (cur.reverse ++ []) :: splitlinesAux false [] t
          else if isLineBreakChar c then
            (cur.reverse ++ []) :: splitlinesAux false [] (d :: t)
          else splitlinesAux false (c :: cur) (d :: t) := rfl
      have hcond : (decide (c.toNat = 13) && decide (d.toNat = 10)) =
          false := by
        rw [decide_eq_false hc13, Bool.false_and]
      rw [List.cons_append,
        show c :: (l ++ '\n' :: rest) = c :: (d :: t) from by rw [hl2],
        hstep, hcond]
      rw [if_neg (by simp), if_neg (by simp [hc])]
      rw [show (d :: t : List Char) = l ++ '\n' :: rest from hl2.symm,
        ih (c :: cur) rest hl]
      simp

lemma splitlines_render : ∀ ls : List (List Char),
    (∀ l ∈ ls, noBreaks l = true) →
    pySplitlines false ((ls.map (fun l => l ++ ['\n'])).flatten) = ls := by
  intro ls
  induction ls with
  | nil => intro _; rfl
  | cons l ls ih =>
    intro hnb
    have hflat : ((l :: ls).map (fun x => x ++ ['\n'])).flatten =
        l ++ '\n' :: (ls.map (fun x => x ++ ['\n'])).flatten := by
      simp
    unfold pySplitlines
    rw [hflat, splitlinesAux_line l [] _ (hnb l (by simp))]
    rw [show splitlinesAux false [] ((ls.map (fun x => x ++ ['\n'])).flatten) =
      pySplitlines false ((ls.map (fun x => x ++ ['\n'])).flatten) from rfl]
    rw [ih (fun x hx => hnb x (by simp [hx]))]
    simp

/-! Digit-string parsing inside a hunk header. -/

lemma digitsOk_spec {d : List Char} (h : digitsOk d = true) :
    d ≠ [] ∧ ∀ c ∈ d, isDigitChar c = true := by
  simp only [digitsOk, Bool.and_eq_true, List.all_eq_true] at h
  exact ⟨by simpa [List.isEmpty_iff] using h.1, h.2⟩

lemma takeDigits_digits_cons {d : List Char} {c : Char} {t : List Char}
    (hd : digitsOk d = true) (hc : isDigitChar c = false) :
    takeDigits (d ++ c :: t) = (d, c :: t) := by
  have hsp := takeWhile_app (p := isDigitChar) d (c :: t)
    (digitsOk_spec hd).2
    (by
      intro x hx
      simp only [List.head?_cons, Option.some_inj] at hx
      exact hx ▸ hc)
  unfold takeDigits
  rw [hsp.1, hsp.2]

lemma hunkOk_spec {h : Hunk} (hk : hunkOk h = true) :
    digitsOk h.startStr = true ∧
    (∀ c, h.countStr = some c → digitsOk c = true) ∧
    digitsOk h.oldStr = true ∧
    (∀ o, h.oldCnt = some o → digitsOk o = true) ∧
    noBreaks h.trailing = true ∧
    (∀ l ∈ h.body, noBreaks l = true) ∧
    bodyConsumes (specCount h) h.body = true := by
  simp only [hunkOk, Bool.and_eq_true, List.all_eq_true] at hk
  obtain ⟨⟨⟨⟨⟨⟨h1, h2⟩, h3⟩, h4⟩, h5⟩, h6⟩, h7⟩ := hk
  refine ⟨h1, ?_, h3, ?_, h5, h6, h7⟩
  · intro c hc
    rw [hc] at h2
    exact h2
  · intro o ho
    rw [ho] at h4
    exact h4

lemma optCountGroup_space (t : List Char) :
    optCountGroup (' ' :: t) = (none, ' ' :: t) := rfl

lemma optCountGroup_comma {d : List Char} {c : Char} {t : List Char}
    (hd : digitsOk d = true) (hc : isDigitChar c = false) :
    optCountGroup (',' :: (d ++ c :: t)) = (some d, c :: t) := by
  have ht := takeDigits_digits_cons (c := c) (t := t) hd hc
  show (if (',').toNat = 44 then
      if (takeDigits (d ++ c :: t)).1 = [] then (none, ',' :: (d ++ c :: t))
      else (some (takeDigits (d ++ c :: t)).1, (takeDigits (d ++ c :: t)).2)
    else (none, ',' :: (d ++ c :: t))) = (some d, c :: t)
  rw [if_pos (by decide), ht]
  rw [if_neg (show ¬((d, c :: t).1 = []) from (digitsOk_spec hd).1)]

lemma hunkMatch_render (h : Hunk) (hok : hunkOk h = true) :
    hunkMatch (renderHunkHeader h) =
      some (specStart h, Option.map digitsToNat h.countStr) := by
  obtain ⟨hs, hc, ho, hoc2, _, _, _⟩ := hunkOk_spec hok
  have hne1 : (h.oldStr = []) = False := eq_false (digitsOk_spec ho).1
  have hne2 : (h.startStr = []) = False := eq_false (digitsOk_spec hs).1
  have c1 : (('@').toNat = 64 ∧ ('@').toNat = 64 ∧
      (' ').toNat = 32 ∧ ('-').toNat = 45) = True := eq_true (by decide)
  have c2 : ((' ').toNat = 32 ∧ ('+').toNat = 43) = True :=
    eq_true (by decide)
  have c3 : ((' ').toNat = 32 ∧ ('@').toNat = 64 ∧
      ('@').toNat = 64) = True := eq_true (by decide)
  cases hoc : h.oldCnt with
  | none =>
    cases hcc : h.countStr with
    | none =>
      have t1 := takeDigits_digits_cons (d := h.oldStr) (c := ' ')
        (t := '+' :: (h.startStr ++ (' ' :: '@' :: '@' :: h.trailing)))
        ho (by decide)
      have t2 := takeDigits_digits_cons (d := h.startStr) (c := ' ')
        (t := '@' :: '@' :: h.trailing) hs (by decide)
      simp only [renderHunkHeader, hoc, hcc, List.nil_append, specStart]
      simp [hunkMatch, c1, c2, c3, t1, t2, hne1, hne2, optCountGroup_space]
    | some cstr =>
      have hcd : digitsOk cstr = true := hc cstr hcc
      have hne3 : (cstr = []) = False := eq_false (digitsOk_spec hcd).1
      have t1 := takeDigits_digits_cons (d := h.oldStr) (c := ' ')
        (t := '+' :: (h.startStr ++ (',' :: (cstr ++
          (' ' :: '@' :: '@' :: h.trailing))))) ho (by decide)
      have t2 := takeDigits_digits_cons (d := h.startStr) (c := ',')
        (t := cstr ++ (' ' :: '@' :: '@' :: h.trailing)) hs (by decide)
      have oc1 := optCountGroup_comma (d := cstr) (c := ' ')
        (t := '@' :: '@' :: h.trailing) hcd (by decide)
      simp only [renderHunkHeader, hoc, hcc, List.nil_append,
        List.cons_append, List.append_assoc, specStart]
      simp [hunkMatch, c1, c2, c3, t1, t2, hne1, hne2, hne3,
        optCountGroup_space, oc1]
  | some ostr =>
    have hodg : digitsOk ostr = true := hoc2 ostr hoc
    have hne4 : (ostr = []) = False := eq_false (digitsOk_spec hodg).1
    cases hcc : h.countStr with
    | none =>
      have t0 := takeDigits_digits_cons (d := h.oldStr) (c := ',')
        (t := ostr ++ (' ' :: '+' :: (h.startStr ++
          (' ' :: '@' :: '@' :: h.trailing)))) ho (by decide)
      have oc0 := optCountGroup_comma (d := ostr) (c := ' ')
        (t := '+' :: (h.startStr ++ (' ' :: '@' :: '@' :: h.trailing)))
        hodg (by decide)
      have t2 := takeDigits_digits_cons (d := h.startStr) (c := ' ')
        (t := '@' :: '@' :: h.trailing) hs (by decide)
      simp only [renderHunkHeader, hoc, hcc, List.nil_append,
        List.cons_append, List.append_assoc, specStart]
      simp [hunkMatch, c1, c2, c3, t0, t2, hne1, hne2, hne4,
        optCountGroup_space, oc0]
    | some cstr =>
      have hcd : digitsOk cstr = true := hc cstr hcc
      have hne3 : (cstr = []) = False := eq_false (digitsOk_spec hcd).1
      have t0 := takeDigits_digits_cons (d := h.oldStr) (c := ',')
        (t := ostr ++ (' ' :: '+' :: (h.startStr ++ (',' :: (cstr ++
          (' ' :: '@' :: '@' :: h.trailing)))))) ho (by decide)
      have oc0 := optCountGroup_comma (d := ostr) (c := ' ')
        (t := '+' :: (h.startStr ++ (',' :: (cstr ++
          (' ' :: '@' :: '@' :: h.trailing))))) hodg (by decide)
      have t2 := takeDigits_digits_cons (d := h.startStr) (c := ',')
        (t := cstr ++ (' ' :: '@' :: '@' :: h.trailing)) hs (by decide)
      have oc1 := optCountGroup_comma (d := cstr) (c := ' ')
        (t := '@' :: '@' :: h.trailing) hcd (by decide)
      simp only [renderHunkHeader, hoc, hcc, List.nil_append,
        List.cons_append, List.append_assoc, specStart]
      simp [hunkMatch, c1, c2, c3, t0, t2, hne1, hne2, hne3, hne4,
        optCountGroup_space, oc0, oc1]

/-! Running the diff scanner over a rendered structured diff. -/

lemma char_toNat_45 {c : Char} (h : c.toNat = 45) : c = '-' := by
  have h2 := Char.ofNat_toNat c
  rw [h] at h2
  exact h2.symm.trans (by decide)

lemma countingLine_iff (l : List Char) :
    countingLine l = true ↔ (l = [] ∨ l.head? ≠ some '-') := by
  cases l with
  | nil => simp [countingLine]
  | cons c t =>
    simp only [countingLine, List.head?_cons, Bool.not_eq_true',
      decide_eq_false_iff_not, List.cons_ne_nil, false_or, ne_eq,
      Option.some_inj]
    constructor
    · intro h45 hc
      exact h45 (by rw [hc]; rfl)
    · intro hc h45
      exact hc (char_toNat_45 h45)

lemma diff_step_path {st : DiffState} {payload : List Char}
    (hrows : truthyRows st.number_of_rows = false) :
    parse_unified_diff_step st ('+' :: '+' :: '+' :: ' ' :: payload) =
      .ok (DiffState.mk st.number_of_rows (some (extractPath payload))
        st.parsed_paths) := by
  obtain ⟨rows, cp, pp⟩ := st
  simp only at hrows
  unfold parse_unified_diff_step
  rw [if_neg (by simp [hrows])]
  rw [if_pos (show List.take 3 ('+' :: '+' :: '+' :: ' ' :: payload) =
    ['+', '+', '+'] from rfl)]
  rfl

lemma diff_step_header {st : DiffState} {h : Hunk} {cp : List Char}
    (hok : hunkOk h = true) (hrows : truthyRows st.number_of_rows = false)
    (hcp : st.current_path = some cp) :
    parse_unified_diff_step st (renderHunkHeader h) =
      .ok (DiffState.mk (some (specCount h)) (some cp)
        (dictUpdate st.parsed_paths cp (specSet h))) := by
  obtain ⟨rows, cp0, pp⟩ := st
  simp only at hrows hcp
  subst hcp
  unfold parse_unified_diff_step
  rw [if_neg (by simp [hrows])]
  rw [if_neg (show ¬(renderHunkHeader h).take 3 = ['+', '+', '+'] by
    rw [show (renderHunkHeader h).take 3 = ['@', '@', ' '] from rfl]
    decide)]
  rw [hunkMatch_render h hok]
  cases hcc : h.countStr with
  | none => simp [specCount, specSet, hcc]
  | some c => simp [specCount, specSet, hcc]

lemma diff_run_body : ∀ (body : List (List Char)) (n : Nat)
    (st : DiffState),
    bodyConsumes n body = true → st.number_of_rows = some n →
    parse_unified_diff_lines st body =
      .ok (DiffState.mk (some 0) st.current_path st.parsed_paths) := by
  intro body
  induction body with
  | nil =>
    intro n st hb hr
    cases n with
    | zero =>
      obtain ⟨rows, cp, pp⟩ := st
      simp only at hr
      subst hr
      rfl
    | succ m => simp [bodyConsumes] at hb
  | cons l ls ih =>
    intro n st hb hr
    cases n with
    | zero => simp [bodyConsumes] at hb
    | succ m =>
      obtain ⟨rows, cp, pp⟩ := st
      simp only at hr
      subst hr
      have hstep := C8_hunk_body_countdown
        (DiffState.mk (some (m + 1)) cp pp) l m rfl
      have hrun : parse_unified_diff_lines
          (DiffState.mk (some (m + 1)) cp pp) (l :: ls) =
          parse_unified_diff_lines
            (DiffState.mk (some (if l = [] ∨ l.head? ≠ some '-'
              then m else m + 1)) cp pp) ls := by
        have h0 : parse_unified_diff_lines
            (DiffState.mk (some (m + 1)) cp pp) (l :: ls) =
            match parse_unified_diff_step
              (DiffState.mk (some (m + 1)) cp pp) l with
            | .error e => Except.error e
            | .ok stx => parse_unified_diff_lines stx ls := rfl
        rw [h0, hstep]
      rw [hrun]
      unfold bodyConsumes at hb
      by_cases hcount : countingLine l = true
      · rw [if_pos hcount] at hb
        rw [if_pos ((countingLine_iff l).mp hcount)]
        exact ih m _ hb rfl
      · rw [if_neg hcount] at hb
        rw [if_neg (fun hx => hcount ((countingLine_iff l).mpr hx))]
        exact ih (m + 1) _ hb rfl

lemma pud_append_ok : ∀ (a : List (List Char)) {st st2 : DiffState}
    (b : List (List Char)),
    parse_unified_diff_lines st a = .ok st2 →
    parse_unified_diff_lines st (a ++ b) =
      parse_unified_diff_lines st2 b := by
  intro a
  induction a with
  | nil =>
    intro st st2 b h
    have h2 : st = st2 := by
      injection h
    rw [h2]
    rfl
  | cons l ls ih =>
    intro st st2 b h
    have h0 : parse_unified_diff_lines st (l :: ls) =
        match parse_unified_diff_step st l with
        | .error e => Except.error e
        | .ok stx => parse_unified_diff_lines stx ls := rfl
    have h1 : parse_unified_diff_lines st ((l :: ls) ++ b) =
        match parse_unified_diff_step st l with
        | .error e => Except.error e
        | .ok stx => parse_unified_diff_lines stx (ls ++ b) := rfl
    rw [h0] at h
    rw [h1]
    cases hstep : parse_unified_diff_step st l with
    | error e =>
      rw [hstep] at h
      exact absurd h (by simp)
    | ok stx =>
      rw [hstep] at h
      exact ih b h

lemma diff_run_hunk {hk : Hunk} {st : DiffState} {cp : List Char}
    (hok : hunkOk hk = true)
    (hrows : truthyRows st.number_of_rows = false)
    (hcp : st.current_path = some cp) :
    parse_unified_diff_lines st (hunkLines hk) =
      .ok (DiffState.mk (some 0) (some cp)
        (dictUpdate st.parsed_paths cp (specSet hk))) := by
  have hbody := (hunkOk_spec hok).2.2.2.2.2.2
  unfold hunkLines
  have h0 : parse_unified_diff_lines st (renderHunkHeader hk :: hk.body) =
      match parse_unified_diff_step st (renderHunkHeader hk) with
      | .error e => Except.error e
      | .ok stx => parse_unified_diff_lines stx hk.body := rfl
  rw [h0, diff_step_header hok hrows hcp]
  exact diff_run_body hk.body (specCount hk) _ hbody rfl

lemma diff_run_hunks : ∀ (hs : List Hunk) (st : DiffState) (cp : List Char),
    (∀ x ∈ hs, hunkOk x = true) →
    truthyRows st.number_of_rows = false →
    st.current_path = some cp →
    parse_unified_diff_lines st ((hs.map hunkLines).flatten) =
      .ok (DiffState.mk
        (if hs.isEmpty then st.number_of_rows else some 0) (some cp)
        (hs.foldl (fun m x => dictUpdate m cp (specSet x))
          st.parsed_paths)) := by
  intro hs
  induction hs with
  | nil =>
    intro st cp _ _ hcp
    obtain ⟨rows, cp0, pp⟩ := st
    simp only at hcp
    subst hcp
    rfl
  | cons x rest ih =>
    intro st cp hok hrows hcp
    have hflat : ((x :: rest).map hunkLines).flatten =
        hunkLines x ++ (rest.map hunkLines).flatten := by simp
    rw [hflat]
    rw [pud_append_ok (hunkLines x) _
      (diff_run_hunk (hok x (by simp)) hrows hcp)]
    rw [ih _ cp (fun y hy => hok y (by simp [hy])) (by simp [truthyRows])
      rfl]
    cases hr : rest.isEmpty <;> simp [hr]

lemma diff_run_sec {s : FileSec} {st : DiffState}
    (hok : secOk s = true)
    (hrows : truthyRows st.number_of_rows = false) :
    parse_unified_diff_lines st (secLines s) =
      .ok (DiffState.mk
        (if s.hunks.isEmpty then st.number_of_rows else some 0)
        (some (extractPath s.payload))
        (s.hunks.foldl
          (fun m x => dictUpdate m (extractPath s.payload) (specSet x))
          st.parsed_paths)) := by
  have hhunks : ∀ x ∈ s.hunks, hunkOk x = true := by
    simp only [secOk, Bool.and_eq_true, List.all_eq_true] at hok
    exact hok.2
  unfold secLines
  have h0 : parse_unified_diff_lines st
      (('+' :: '+' :: '+' :: ' ' :: s.payload) ::
        (s.hunks.map hunkLines).flatten) =
      match parse_unified_diff_step st
        ('+' :: '+' :: '+' :: ' ' :: s.payload) with
      | .error e => Except.error e
      | .ok stx => parse_unified_diff_lines stx
          ((s.hunks.map hunkLines).flatten) := rfl
  rw [h0, diff_step_path hrows]
  exact diff_run_hunks s.hunks _ (extractPath s.payload) hhunks hrows rfl

/-! Lookup in the result dictionary. -/

lemma assocLookup_dictUpdate : ∀ (m : List (List Char × Finset Nat))
    (k : List Char) (v : Finset Nat) (k2 : List Char),
    assocLookup (dictUpdate m k v) k2 =
      if k2 = k then some (((assocLookup m k).getD ∅) ∪ v)
      else assocLookup m k2 := by
  intro m
  induction m with
  | nil =>
    intro k v k2
    by_cases hk : k2 = k
    · subst hk
      simp [dictUpdate, assocLookup]
    · simp [dictUpdate, assocLookup, hk, Ne.symm hk]
  | cons p rest ih =>
    intro k v k2
    obtain ⟨ka, va⟩ := p
    by_cases h2 : ka = k
    · subst h2
      rw [show dictUpdate ((ka, va) :: rest) ka v = (ka, va ∪ v) :: rest
        from by simp [dictUpdate]]
      by_cases hk : k2 = ka
      · subst hk
        simp [assocLookup]
      · simp [assocLookup, hk, Ne.symm hk]
    · rw [show dictUpdate ((ka, va) :: rest) k v =
        (ka, va) :: dictUpdate rest k v from by simp [dictUpdate, h2]]
      by_cases hk : ka = k2
      · subst hk
        rw [show assocLookup ((ka, va) :: dictUpdate rest k v) ka = some va
          from by simp [assocLookup]]
        rw [if_neg h2]
        simp [assocLookup]
      · rw [show assocLookup ((ka, va) :: dictUpdate rest k v) k2 =
          assocLookup (dictUpdate rest k v) k2 from by simp [assocLookup, hk]]
        rw [ih k v k2]
        rw [show assocLookup ((ka, va) :: rest) k2 = assocLookup rest k2
          from by simp [assocLookup, hk]]
        by_cases hkk : k2 = k
        · subst hkk
          rw [if_pos rfl, if_pos rfl]
          rw [show assocLookup ((ka, va) :: rest) k2 = assocLookup rest k2
            from by simp [assocLookup, hk]]
        · rw [if_neg hkk, if_neg hkk]

lemma foldl_union_init : ∀ (l : List (Finset Nat)) (a : Finset Nat),
    l.foldl (fun x y => x ∪ y) a = a ∪ unionList l := by
  intro l
  induction l with
  | nil => intro a; simp [unionList]
  | cons s ls ih =>
    intro a
    show ls.foldl _ (a ∪ s) = a ∪ unionList (s :: ls)
    rw [ih (a ∪ s)]
    rw [show unionList (s :: ls) = ls.foldl (fun x y => x ∪ y) (∅ ∪ s)
      from rfl]
    rw [ih (∅ ∪ s), Finset.empty_union, Finset.union_assoc]

lemma unionList_nil : unionList [] = ∅ := rfl

lemma unionList_cons (s : Finset Nat) (l : List (Finset Nat)) :
    unionList (s :: l) = s ∪ unionList l := by
  rw [show unionList (s :: l) = l.foldl (fun x y => x ∪ y) (∅ ∪ s)
    from rfl]
  rw [foldl_union_init, Finset.empty_union]

lemma unionList_append (l1 l2 : List (Finset Nat)) :
    unionList (l1 ++ l2) = unionList l1 ∪ unionList l2 := by
  rw [show unionList (l1 ++ l2) =
    (l1 ++ l2).foldl (fun x y => x ∪ y) ∅ from rfl]
  rw [List.foldl_append, foldl_union_init]
  rfl

lemma lookup_foldl_hunks : ∀ (hs : List Hunk) (cp : List Char)
    (m : List (List Char × Finset Nat)) (k2 : List Char),
    assocLookup (hs.foldl (fun m x => dictUpdate m cp (specSet x)) m) k2 =
      if k2 = cp ∧ hs.isEmpty = false then
        some (((assocLookup m k2).getD ∅) ∪ unionList (hs.map specSet))
      else assocLookup m k2 := by
  intro hs
  induction hs with
  | nil =>
    intro cp m k2
    rw [if_neg (by simp)]
    rfl
  | cons x rest ih =>
    intro cp m k2
    rw [List.foldl_cons, ih cp (dictUpdate m cp (specSet x)) k2]
    by_cases hk : k2 = cp
    · subst hk
      cases rest with
      | nil =>
        rw [if_neg (by simp), if_pos (by simp)]
        rw [assocLookup_dictUpdate, if_pos rfl]
        simp [unionList_cons, unionList_nil]
      | cons y ys =>
        rw [if_pos ⟨rfl, rfl⟩, if_pos ⟨rfl, rfl⟩]
        rw [assocLookup_dictUpdate, if_pos rfl]
        simp only [Option.getD_some, List.map_cons, unionList_cons,
          Finset.union_assoc]
    · rw [if_neg (fun hc : k2 = cp ∧ rest.isEmpty = false => hk hc.1)]
      rw [if_neg (fun hc : k2 = cp ∧ (x :: rest).isEmpty = false => hk hc.1)]
      rw [assocLookup_dictUpdate, if_neg hk]

lemma unionSets_cons (s : FileSec) (rest : List FileSec) (p : List Char) :
    unionSets (s :: rest) p = unionList (secSets s p) ∪ unionSets rest p := by
  rw [show unionSets (s :: rest) p =
    unionList (secSets s p ++ (rest.map (fun x => secSets x p)).flatten)
    from by simp [unionSets]]
  exact unionList_append _ _

lemma hasKey_cons (s : FileSec) (rest : List FileSec) (p : List Char) :
    hasKey (s :: rest) p =
      ((decide (extractPath s.payload = p) && !s.hunks.isEmpty) ||
        hasKey rest p) := by
  simp [hasKey]

lemma hasKey_false_unionSets : ∀ (secs : List FileSec) (p : List Char),
    hasKey secs p = false → unionSets secs p = ∅ := by
  intro secs
  induction secs with
  | nil => intro p _; rfl
  | cons s rest ih =>
    intro p h
    rw [hasKey_cons, Bool.or_eq_false_iff] at h
    rw [unionSets_cons, ih p h.2]
    have h1 := h.1
    rw [Bool.and_eq_false_iff] at h1
    have hnil : secSets s p = [] := by
      rcases h1 with h1 | h1
      · unfold secSets
        rw [if_neg (by simpa using h1)]
      · have hh : s.hunks = [] := by
          simpa [Bool.not_eq_false', List.isEmpty_iff] using h1
        unfold secSets
        rw [hh]
        simp
    rw [hnil]
    simp [unionList_nil]

lemma diff_run_secs : ∀ (secs : List FileSec) (st : DiffState),
    diffOk secs = true → truthyRows st.number_of_rows = false →
    ∃ fin : DiffState,
      parse_unified_diff_lines st (diffLines secs) = .ok fin ∧
      truthyRows fin.number_of_rows = false ∧
      ∀ p, assocLookup fin.parsed_paths p =
        if hasKey secs p then
          some (((assocLookup st.parsed_paths p).getD ∅) ∪
            unionSets secs p)
        else assocLookup st.parsed_paths p := by
  intro secs
  induction secs with
  | nil =>
    intro st _ hrows
    exact ⟨st, rfl, hrows, by intro p; simp [hasKey]⟩
  | cons s rest ih =>
    intro st hok hrows
    have hs : secOk s = true := by
      simp only [diffOk, List.all_eq_true] at hok
      exact hok s (by simp)
    have hrest : diffOk rest = true := by
      simp only [diffOk, List.all_eq_true] at hok ⊢
      exact fun x hx => hok x (by simp [hx])
    have hsec := @diff_run_sec s st hs hrows
    have hmidrows : truthyRows
        (if s.hunks.isEmpty then st.number_of_rows else some 0) = false := by
      cases hie : s.hunks.isEmpty
      · rw [if_neg (by simp [hie])]
        rfl
      · rw [if_pos (by simp [hie])]
        exact hrows
    obtain ⟨fin, hfin, hfr, hfl⟩ := ih
      (DiffState.mk (if s.hunks.isEmpty then st.number_of_rows else some 0)
        (some (extractPath s.payload))
        (s.hunks.foldl
          (fun m x => dictUpdate m (extractPath s.payload) (specSet x))
          st.parsed_paths))
      hrest hmidrows
    have hproj : ∀ (a : Option Nat) (b : Option (List Char))
        (c : List (List Char × Finset Nat)),
        (DiffState.mk a b c).parsed_paths = c := fun _ _ _ => rfl
    refine ⟨fin, ?_, hfr, ?_⟩
    · rw [show diffLines (s :: rest) = secLines s ++ diffLines rest from
        by simp [diffLines], pud_append_ok _ (diffLines rest) hsec]
      exact hfin
    · intro p
      have hflp := hfl p
      rw [hproj] at hflp
      rw [hflp]
      have hmid := lookup_foldl_hunks s.hunks (extractPath s.payload)
        st.parsed_paths p
      rw [hasKey_cons, unionSets_cons]
      by_cases hA : p = extractPath s.payload ∧ s.hunks.isEmpty = false
      · rw [if_pos hA] at hmid
        have hAbool : (decide (extractPath s.payload = p) &&
            !s.hunks.isEmpty) = true := by
          rw [hA.2]
          simp [hA.1]
        have hsec2 : secSets s p = s.hunks.map specSet := by
          unfold secSets
          rw [if_pos hA.1.symm]
        rw [hmid, hAbool, hsec2]
        rw [show (true || hasKey rest p) = true from Bool.true_or _]
        rw [if_pos rfl]
        by_cases hkr : hasKey rest p = true
        · rw [if_pos hkr]
          simp [Finset.union_assoc]
        · rw [if_neg hkr]
          rw [hasKey_false_unionSets rest p (by simpa using hkr)]
          simp
      · rw [if_neg hA] at hmid
        have hAbool : (decide (extractPath s.payload = p) &&
            !s.hunks.isEmpty) = false := by
          rw [Bool.and_eq_false_iff]
          by_cases he : extractPath s.payload = p
          · refine Or.inr ?_
            have hh : s.hunks = [] := by
              cases hie : s.hunks with
              | nil => rfl
              | cons a as => exact absurd ⟨he.symm, by simp [hie]⟩ hA
            simp [hh]
          · exact Or.inl (by simpa using he)
        have hsec2 : unionList (secSets s p) = ∅ := by
          by_cases he : extractPath s.payload = p
          · have hh : s.hunks = [] := by
              cases hie : s.hunks with
              | nil => rfl
              | cons a as => exact absurd ⟨he.symm, by simp [hie]⟩ hA
            unfold secSets
            rw [if_pos he]
            simp [hh, unionList_nil]
          · unfold secSets
            rw [if_neg he]
            simp [unionList_nil]
        rw [hmid, hAbool, hsec2]
        simp

/-! No rendered line contains a line-break character, so the render/split
round trip recovers the structured lines. -/

lemma digit_not_break {c : Char} (h : isDigitChar c = true) :
    isLineBreakChar c = false := by
  simp only [isDigitChar, isLineBreakChar, Bool.and_eq_true,
    decide_eq_true_eq, Bool.or_eq_false_iff, decide_eq_false_iff_not] at h ⊢
  omega

lemma noBreaks_cons (c : Char) (l : List Char) :
    noBreaks (c :: l) = (!(isLineBreakChar c) && noBreaks l) := by
  simp [noBreaks]

lemma noBreaks_append (a b : List Char) :
    noBreaks (a ++ b) = (noBreaks a && noBreaks b) := by
  simp [noBreaks]

lemma noBreaks_digits {d : List Char} (h : digitsOk d = true) :
    noBreaks d = true := by
  have hd := (digitsOk_spec h).2
  simp only [noBreaks, List.all_eq_true, Bool.not_eq_true']
  exact fun c hc => digit_not_break (hd c hc)

lemma noBreaks_header {h : Hunk} (hok : hunkOk h = true) :
    noBreaks (renderHunkHeader h) = true := by
  obtain ⟨hs, hc, ho, hoc, htr, _, _⟩ := hunkOk_spec hok
  have c1 : isLineBreakChar '@' = false := by decide
  have c2 : isLineBreakChar ' ' = false := by decide
  have c3 : isLineBreakChar '-' = false := by decide
  have c4 : isLineBreakChar '+' = false := by decide
  have c5 : isLineBreakChar ',' = false := by decide
  unfold renderHunkHeader
  cases hoc2 : h.oldCnt with
  | none =>
    cases hcs : h.countStr with
    | none =>
      simp [noBreaks_cons, noBreaks_append, c1, c2, c3, c4,
        noBreaks_digits hs, noBreaks_digits ho, htr]
    | some cs =>
      simp [noBreaks_cons, noBreaks_append, c1, c2, c3, c4, c5,
        noBreaks_digits hs, noBreaks_digits ho,
        noBreaks_digits (hc cs hcs), htr]
  | some o =>
    cases hcs : h.countStr with
    | none =>
      simp [noBreaks_cons, noBreaks_append, c1, c2, c3, c4, c5,
        noBreaks_digits hs, noBreaks_digits ho,
        noBreaks_digits (hoc o hoc2), htr]
    | some cs =>
      simp [noBreaks_cons, noBreaks_append, c1, c2, c3, c4, c5,
        noBreaks_digits hs, noBreaks_digits ho,
        noBreaks_digits (hoc o hoc2), noBreaks_digits (hc cs hcs), htr]

lemma noBreaks_diffLines {secs : List FileSec} (hok : diffOk secs = true) :
    ∀ l ∈ diffLines secs, noBreaks l = true := by
  intro l hl
  simp only [diffLines, List.mem_flatten, List.mem_map] at hl
  obtain ⟨_, ⟨s, hs, rfl⟩, hl⟩ := hl
  have hsok : secOk s = true := by
    simp only [diffOk, List.all_eq_true] at hok
    exact hok s hs
  simp only [secOk, Bool.and_eq_true, List.all_eq_true] at hsok
  simp only [secLines, List.mem_cons, List.mem_flatten, List.mem_map] at hl
  rcases hl with rfl | ⟨_, ⟨x, hx, rfl⟩, hl⟩
  · simp [noBreaks_cons, hsok.1,
      (by decide : isLineBreakChar ('+') = false),
      (by decide : isLineBreakChar (' ') = false)]
  · have hxok : hunkOk x = true := hsok.2 x hx
    simp only [hunkLines, List.mem_cons] at hl
    rcases hl with rfl | hl
    · exact noBreaks_header hxok
    · exact (hunkOk_spec hxok).2.2.2.2.2.1 l hl

/-- C2: for every structured well-formed diff (each hunk header follows its
section's `+++` path line), `parse_unified_diff` maps each path — the `+++`
payload truncated at the first tab, with a leading `b/` stripped — to the
union over that path's hunks of the intervals
`[new-start, new-start + new-count)` with a missing count defaulting to 1,
later hunks for the same path adding to the existing set; paths with no
hunk are absent.  In particular the header `@@ -1,3 +10,2 @@` after
`+++ b/foo.py` yields the map `foo.py ↦ \x7b10, 11\x7d`. -/
theorem C2_diff_ranges :
    (∀ (secs : List FileSec) (p : List Char), diffOk secs = true →
      (parse_unified_diff (renderDiff secs)).map
        (fun r => assocLookup r p) =
      .ok (if hasKey secs p then some (unionSets secs p) else none)) ∧
    parse_unified_diff (str "+++ b/foo.py\n@@ -1,3 +10,2 @@") =
      .ok [(str "foo.py", ({10, 11} : Finset Nat))] := by
  constructor
  · intro secs p hok
    obtain ⟨fin, hfin, _, hfl⟩ := diff_run_secs secs
      (DiffState.mk none none []) hok rfl
    have hstep : parse_unified_diff (renderDiff secs) =
        .ok fin.parsed_paths := by
      have h0 : parse_unified_diff (renderDiff secs) =
          match parse_unified_diff_lines (DiffState.mk none none [])
            (pySplitlines false (renderDiff secs)) with
          | .error e => Except.error e
          | .ok st => Except.ok st.parsed_paths := rfl
      rw [h0, show pySplitlines false (renderDiff secs) = diffLines secs from
        splitlines_render (diffLines secs) (noBreaks_diffLines hok), hfin]
    rw [hstep]
    have hlook := hfl p
    rw [show assocLookup
      (DiffState.mk (none : Option Nat) (none : Option (List Char))
        ([] : List (List Char × Finset Nat))).parsed_paths p = none
      from rfl] at hlook
    simp [Except.map, hlook, Finset.empty_union]
  · decide

/-- Witness: the general clause of C2 at a concrete one-section,
one-hunk diff rendering `+++ b/foo.py`, `@@ -1,3 +10,2 @@` and two added
body lines, looked up at path `foo.py`. -/
theorem C2_diff_ranges_witness :
    (parse_unified_diff (renderDiff
        [FileSec.mk (str "b/foo.py")
          [Hunk.mk (str "1") (some (str "3")) (str "10") (some (str "2"))
            [] [str "+a", str "+b"]]])).map
        (fun r => assocLookup r (str "foo.py")) =
      .ok (if hasKey
          [FileSec.mk (str "b/foo.py")
            [Hunk.mk (str "1") (some (str "3")) (str "10") (some (str "2"))
              [] [str "+a", str "+b"]]] (str "foo.py")
        then some (unionSets
          [FileSec.mk (str "b/foo.py")
            [Hunk.mk (str "1") (some (str "3")) (str "10") (some (str "2"))
              [] [str "+a", str "+b"]]] (str "foo.py"))
        else none) :=
  C2_diff_ranges.1
    [FileSec.mk (str "b/foo.py")
      [Hunk.mk (str "1") (some (str "3")) (str "10") (some (str "2"))
        [] [str "+a", str "+b"]]]
    (str "foo.py") (by decide)

end Flake8Utils
